import Mathlib

/-!
# The spark-submit runner (`pkg/controller/submission_runner.go`)

A shallow embedding of `sparkSubmitRunner`: its constructor, the worker body
`runWorker`, `submit` and `run`, together with the parts of the Go runtime and
standard library the runner relies on (`filepath.Join`, `exec.Command`,
`cmd.Output`, `metav1.Now`, channels).

Logging through `glog` has no effect on the values computed and is left out.
-/

namespace SubmissionRunner

/-! ## Data model -/

/-- Modelled from the spec: the `submission` type is declared outside
`submission_runner.go`; the runner reads its fields `appID`, `appName` and
`args` (application identifier, display name, ordered command-line
arguments). -/
structure submission where
  appID : String
  appName : String
  args : List String
deriving DecidableEq, Repr

/-- Modelled from the spec: `v1alpha1.ApplicationStateType` is declared outside
`submission_runner.go`. The runner only writes the two constants
`FailedSubmissionState` (the spec's terminal state `Failed`) and
`CompletedState` (the spec's `Completed`); `unset` is the zero value a fresh
`appStateUpdate` starts with. -/
inductive ApplicationStateType where
  | unset
  | FailedSubmissionState
  | CompletedState
deriving DecidableEq, Repr

/-- The type `metav1.Time` wraps `time.Time`. An instant is kept as the number
of nanoseconds since January 1, year 1, 00:00 UTC; that instant is the zero
value of the type. -/
structure Time where
  ns : Nat
deriving DecidableEq, Repr

/-- The zero value of `metav1.Time`. -/
def Time.zero : Time := ⟨0⟩

/-- Go's `IsZero`: the instant is January 1, year 1, 00:00 UTC. -/
def Time.IsZero (t : Time) : Bool := t.ns == 0

instance : LE Time := ⟨fun a b => a.ns ≤ b.ns⟩

instance (a b : Time) : Decidable (a ≤ b) := inferInstanceAs (Decidable (a.ns ≤ b.ns))

/-- Go's `time.unixToInternal`: seconds from year 1 to the Unix epoch. -/
def unixToInternal : Nat := (1969 * 365 + 1969 / 4 - 1969 / 100 + 1969 / 400) * 86400

/-- The call `metav1.Now()` when the system clock reads `unixNanos` nanoseconds
after the Unix epoch. -/
def Now (unixNanos : Nat) : Time := ⟨unixToInternal * 1000000000 + unixNanos⟩

/-- The struct `appStateUpdate`. -/
structure appStateUpdate where
  appID : String
  submissionTime : Time
  completionTime : Time
  state : ApplicationStateType
  errorMessage : String
deriving DecidableEq, Repr

/-- What `cmd.Output()` returns, by the dynamic type of its error:
`success` is a nil error (the process ran and exited with code 0),
`exitError` is an `*exec.ExitError` (the process ran and exited unsuccessfully;
`Output` stores the captured standard error in its `Stderr` field),
`otherError` is any other error (the process could not be started, as when the
executable does not exist). -/
inductive CmdOutcome where
  | success (stdout : String)
  | exitError (stdout : String) (Stderr : String)
  | otherError (msg : String)
deriving DecidableEq, Repr

/-! ## `path/filepath` (Unix) -/

/-- The backtracking of `filepath.Clean` on a `..` element, after the first
`out.w--`: `for out.w > dotdot && !os.IsPathSeparator(out.index(out.w)) { out.w-- }`.
Takes and returns the write index `out.w`. -/
def cleanBacktrack (out : List Char) (dotdot : Nat) : Nat → Nat
  | 0 => 0
  | w + 1 =>
    if w + 1 > dotdot ∧ out.get? (w + 1) ≠ some '/' then cleanBacktrack out dotdot w
    else w + 1

/-- The main loop `for r < n { switch ... }` of `filepath.Clean`. `rest` is
`path[r:]`, `out` the output buffer up to its write index, and the first
argument bounds the number of iterations (each consumes at least one byte). -/
def cleanLoop (rooted : Bool) : Nat → List Char → List Char → Nat → List Char
  | 0, _, out, _ => out
  | _ + 1, [], out, _ => out
  | fuel + 1, c :: t, out, dotdot =>
    if c = '/' then
      -- empty path element
      cleanLoop rooted fuel t out dotdot
    else if c = '.' ∧ (t = [] ∨ t.head? = some '/') then
      -- . element
      cleanLoop rooted fuel t out dotdot
    else if c = '.' ∧ t.head? = some '.' ∧ (t.tail = [] ∨ t.tail.head? = some '/') then
      -- .. element: remove to last separator
      if out.length > dotdot then
        cleanLoop rooted fuel t.tail
          (out.take (cleanBacktrack out dotdot (out.length - 1))) dotdot
      else if !rooted then
        let out1 := if out.length > 0 then out ++ ['/'] else out
        let out2 := out1 ++ ['.', '.']
        cleanLoop rooted fuel t.tail out2 out2.length
      else
        cleanLoop rooted fuel t.tail out dotdot
    else
      -- real path element: add slash if needed, copy element
      let out1 :=
        if (rooted ∧ out.length ≠ 1) ∨ (!rooted ∧ out.length ≠ 0) then out ++ ['/'] else out
      cleanLoop rooted fuel ((c :: t).dropWhile (fun x => x ≠ '/'))
        (out1 ++ (c :: t).takeWhile (fun x => x ≠ '/')) dotdot

/-- Go's `filepath.Clean` on a list of bytes. -/
def cleanChars (path : List Char) : List Char :=
  if path = [] then ['.']
  else
    let rooted := path.head? = some '/'
    let out := cleanLoop rooted path.length (if rooted then path.tail else path)
      (if rooted then ['/'] else []) (if rooted then 1 else 0)
    if out.length = 0 then ['.'] else out

/-- Go's `filepath.Clean`. -/
def Clean (path : String) : String := ⟨cleanChars path.data⟩

/-- Go's `filepath.Join`: the elements from the first non-empty one on, joined
with the separator and cleaned; the empty string when all are empty. -/
def Join : List String → String
  | [] => ""
  | e :: rest => if e ≠ "" then Clean ("/".intercalate (e :: rest)) else Join rest

/-! ## `os`, `os/exec` and channels -/

/-- Go's `os.LookupEnv` for one variable of the process environment: the
value and whether the variable is present. -/
def LookupEnv (v : Option String) : String × Bool :=
  match v with
  | some x => (x, true)
  | none => ("", false)

/-- The struct `exec.Cmd`, as far as `exec.Command` fills it in. -/
structure Cmd where
  Path : String
  Args : List String
deriving DecidableEq, Repr

/-- Go's `exec.Command(name, arg...)`: `Args` is `name` followed by `arg`.
(`Path` is `name` itself whenever `name` contains a separator, which every
path ending in `bin/spark-submit` does.) -/
def Command (name : String) (arg : List String) : Cmd :=
  { Path := name, Args := name :: arg }

/-- The reporting channel `appStateReportingChan` seen from the sending side:
whether it has been closed, and the values sent on it so far, oldest first. -/
structure ReportChan where
  closed : Bool
  sent : List appStateUpdate
deriving DecidableEq, Repr

/-- A completed send `ch <- stateUpdate`. Sending on a closed channel panics
(`none`); otherwise the value is appended to what the channel has carried. -/
def chanSend (ch : ReportChan) (u : appStateUpdate) : Option ReportChan :=
  if ch.closed then none else some { ch with sent := ch.sent ++ [u] }

/-! ## `runWorker` -/

/-- Lines 70-74 of `runWorker`: the executable path, from the value of
`SPARK_HOME` in the process environment (`none` when it is not set). -/
def sparkSubmitCommand (env : Option String) : String :=
  let sparkHome := (LookupEnv env).1
  Join [sparkHome, "/bin/spark-submit"]

/-- Lines 77-82 of `runWorker`: the command for submission `s` and the fresh
state update, `unixNanos` being the clock reading of `metav1.Now()`. -/
def startSubmission (command : String) (s : submission) (unixNanos : Nat) :
    Cmd × appStateUpdate :=
  (Command command s.args,
   { appID := s.appID
     submissionTime := Now unixNanos
     completionTime := Time.zero
     state := ApplicationStateType.unset
     errorMessage := "" })

/-- Lines 83-93 of `runWorker`: the state update after `cmd.Output()` returned
`out`. `clk k` is the `k`-th reading of the system clock and `reads` the number
of readings taken so far; the result carries the new number of readings. -/
def classifyOutcome (stateUpdate : appStateUpdate) (out : CmdOutcome) (clk : Nat → Nat)
    (reads : Nat) : appStateUpdate × Nat :=
  match out with
  | CmdOutcome.success _ =>
    ({ stateUpdate with
        state := ApplicationStateType.CompletedState
        completionTime := Now (clk reads) }, reads + 1)
  | CmdOutcome.exitError _ Stderr =>
    ({ stateUpdate with
        state := ApplicationStateType.FailedSubmissionState
        errorMessage := Stderr }, reads)
  | CmdOutcome.otherError _ =>
    ({ stateUpdate with state := ApplicationStateType.FailedSubmissionState }, reads)

/-- One iteration of the loop of `runWorker` up to the send (lines 77-93): the
command executed, the state update to report and the new number of clock
readings. -/
def processSubmission (command : String) (clk : Nat → Nat) (reads : Nat) (s : submission)
    (out : CmdOutcome) : Cmd × appStateUpdate × Nat :=
  let (cmd, stateUpdate) := startSubmission command s (clk reads)
  let (stateUpdate, reads) := classifyOutcome stateUpdate out clk (reads + 1)
  (cmd, stateUpdate, reads)

/-- What one worker has done: the commands it executed (oldest first), the
reporting channel, the number of clock readings it took, and whether it
panicked. -/
structure WorkerRun where
  execs : List Cmd
  ch : ReportChan
  reads : Nat
  panicked : Bool
deriving DecidableEq, Repr

/-- The loop `for s := range r.queue` of `runWorker` over the submissions the
worker dequeues, each paired with the outcome of its command. The worker is
the only one acting on the reporting channel. -/
def runWorkerLoop (command : String) (clk : Nat → Nat) :
    List (submission × CmdOutcome) → WorkerRun → WorkerRun
  | [], w => w
  | (s, out) :: rest, w =>
    let (cmd, stateUpdate, reads) := processSubmission command clk w.reads s out
    match chanSend w.ch stateUpdate with
    | none => { execs := w.execs ++ [cmd], ch := w.ch, reads := reads, panicked := true }
    | some ch =>
      runWorkerLoop command clk rest
        { execs := w.execs ++ [cmd], ch := ch, reads := reads, panicked := w.panicked }

/-- The method `runWorker` run by one worker. The process environment may
change while the invocation runs (other goroutines may set or unset
variables): `envs 0` is the value of `SPARK_HOME` when the invocation starts
and `envs (k + 1)` its value when the worker has dequeued `k + 1` submissions.
`clk` gives the readings of the clock the worker takes, `items` the
submissions it dequeues with the outcome of each command, `ch` the reporting
channel. Line 70 reads the variable, once, before the loop is entered. -/
def runWorker (envs : Nat → Option String) (clk : Nat → Nat)
    (items : List (submission × CmdOutcome)) (ch : ReportChan) : WorkerRun :=
  let command := sparkSubmitCommand (envs 0)
  runWorkerLoop command clk items { execs := [], ch := ch, reads := 0, panicked := false }

/-! ## The runner as a transition system

Goroutines interleave: `run`, the `workers` worker goroutines it starts, the
producers calling `submit`, and whoever fires the stop signal. A state of the
system holds the runner (with the contents of its two channels), the stop
channel and the position of each goroutine; a label names the goroutine that
moves. A step that is not possible in a state (a blocked channel operation, a
goroutine that has finished) yields `none`. -/

/-- A buffered channel: its capacity and the values it holds, oldest first. -/
structure Chan (α : Type) where
  cap : Nat
  buf : List α
deriving DecidableEq, Repr

/-- The struct `sparkSubmitRunner`, with the contents of its channels. -/
structure sparkSubmitRunner where
  workers : Int
  queue : Chan submission
  appStateReportingChan : ReportChan
deriving DecidableEq, Repr

/-- Go's `runtime.maxAlloc` on 64-bit Linux (Go 1.11 and later): the size of
the address space the allocator serves. -/
def maxAlloc : Nat := 2 ^ 48

/-- Go's `runtime.hchanSize` on a 64-bit platform: the size of a channel
header. -/
def hchanSize : Nat := 96

/-- The size of a channel element of type `*submission`, a pointer on a 64-bit
platform. -/
def ptrSize : Nat := 8

/-- Go's `make(chan *submission, size)`, that is `runtime.makechan`: it panics
(`makechan: size out of range`) when `size` is negative or the buffer,
`size` elements of `ptrSize` bytes, does not fit in `maxAlloc - hchanSize`
bytes; and the process dies (out of memory) when the buffer exceeds the
`avail` bytes the allocator can still obtain. Both are `none`. -/
def makechan (avail : Nat) (size : Int) : Option (Chan submission) :=
  if size < 0 ∨ maxAlloc - hchanSize < ptrSize * size.toNat then none
  else if avail < ptrSize * size.toNat then none
  else some { cap := size.toNat, buf := [] }

/-- The constructor `newSparkSubmitRunner`, in a process that can still
allocate `avail` bytes; `none` when `make(chan *submission, workers)` fails.
(`workers` is a Go `int`; every value outside its 64-bit range is one for
which `make` fails.) -/
def newSparkSubmitRunner (avail : Nat) (workers : Int) (appStateReportingChan : ReportChan) :
    Option sparkSubmitRunner :=
  match makechan avail workers with
  | none => none
  | some queue =>
    some
      { workers := workers
        queue := queue
        appStateReportingChan := appStateReportingChan }

/-- Where a worker goroutine `wait.Until(r.runWorker, time.Second, stopCh)` is. -/
inductive WorkerPC where
  /-- In `wait.Until`, before it checks `stopCh` and calls `runWorker`. -/
  | supervised
  /-- The goroutine is over: `wait.Until` saw `stopCh` closed and returned. -/
  | exited
  /-- In `runWorker`, at the receive of `for s := range r.queue`. -/
  | receiving (command : String)
  /-- In `cmd.Output()`: the external command is executing. -/
  | executing (command : String) (cmd : Cmd) (stateUpdate : appStateUpdate)
  /-- At `r.appStateReportingChan <- stateUpdate`. -/
  | sending (command : String) (stateUpdate : appStateUpdate)
  /-- The send hit a closed channel and panicked. -/
  | panicked
deriving DecidableEq, Repr

/-- Where the goroutine executing `run` is. -/
inductive RunPC where
  /-- In the loop `for i := 0; i < r.workers; i++`, about to test `i`. -/
  | spawning (i : Int)
  /-- At `<-stopCh`. -/
  | awaitingStop
  /-- After `close(r.appStateReportingChan)`: `run` has returned. -/
  | returned
deriving DecidableEq, Repr

/-- A state of the system. -/
structure State where
  r : sparkSubmitRunner
  /-- Whether `stopCh` has been closed (the stop signal has fired). -/
  stopCh : Bool
  runPC : RunPC
  workerPCs : List WorkerPC
  /-- The number of `close(r.appStateReportingChan)` performed. -/
  closes : Nat
  /-- The number of readings of the system clock taken. -/
  reads : Nat
  /-- Whether a goroutine has panicked, which ends the process. -/
  crashed : Bool
deriving DecidableEq, Repr

/-- The goroutine (or outside event) that takes the next step. -/
inductive Label where
  /-- The next step of `run`. -/
  | run
  /-- The stop signal fires. -/
  | stop
  /-- A call `submit(s)` completes by putting `s` into the queue's buffer. -/
  | submit (s : submission)
  /-- A call `submit(s)` completes by handing `s` to worker `i`, parked at
  its receive on the empty queue. -/
  | handoff (s : submission) (i : Nat)
  /-- The next step of worker `i`, other than the end of its command. -/
  | worker (i : Nat)
  /-- The command of worker `i` terminates, `cmd.Output()` returning `out`. -/
  | cmdDone (i : Nat) (out : CmdOutcome)
deriving DecidableEq, Repr

/-- The state in which `run` is called on runner `r`. -/
def initState (r : sparkSubmitRunner) : State :=
  { r := r, stopCh := false, runPC := RunPC.spawning 0, workerPCs := [], closes := 0,
    reads := 0, crashed := false }

/-- The method `submit`: `r.queue <- s` into the buffer; blocked when full. -/
def submit (r : sparkSubmitRunner) (s : submission) : Option sparkSubmitRunner :=
  if r.queue.buf.length < r.queue.cap then
    some { r with queue := { r.queue with buf := r.queue.buf ++ [s] } }
  else none

/-- A step of `run` (lines 61-66). -/
def stepRun (st : State) : Option State :=
  match st.runPC with
  | RunPC.spawning i =>
    if i < st.r.workers then
      some { st with runPC := RunPC.spawning (i + 1),
                     workerPCs := st.workerPCs ++ [WorkerPC.supervised] }
    else some { st with runPC := RunPC.awaitingStop }
  | RunPC.awaitingStop =>
    if st.stopCh then
      if st.r.appStateReportingChan.closed then
        -- close of a closed channel panics
        some { st with crashed := true }
      else
        some { st with
          r := { st.r with
            appStateReportingChan := { st.r.appStateReportingChan with closed := true } }
          closes := st.closes + 1
          runPC := RunPC.returned }
    else none
  | RunPC.returned => none

/-- A step of worker `i`: the stop check of `wait.Until` followed by lines 70-74
of `runWorker`; the receive from the queue followed by lines 77-82; the send
of line 95. -/
def stepWorker (env : Option String) (clk : Nat → Nat) (st : State) (i : Nat) : Option State :=
  match st.workerPCs.get? i with
  | some WorkerPC.supervised =>
    if st.stopCh then some { st with workerPCs := st.workerPCs.set i WorkerPC.exited }
    else some { st with
      workerPCs := st.workerPCs.set i (WorkerPC.receiving (sparkSubmitCommand env)) }
  | some (WorkerPC.receiving command) =>
    match st.r.queue.buf with
    | [] => none
    | s :: rest =>
      let (cmd, stateUpdate) := startSubmission command s (clk st.reads)
      some { st with
        r := { st.r with queue := { st.r.queue with buf := rest } }
        reads := st.reads + 1
        workerPCs := st.workerPCs.set i (WorkerPC.executing command cmd stateUpdate) }
  | some (WorkerPC.sending command stateUpdate) =>
    match chanSend st.r.appStateReportingChan stateUpdate with
    | none =>
      some { st with workerPCs := st.workerPCs.set i WorkerPC.panicked, crashed := true }
    | some ch =>
      some { st with
        r := { st.r with appStateReportingChan := ch }
        workerPCs := st.workerPCs.set i (WorkerPC.receiving command) }
  | _ => none

/-- The command of worker `i` terminates (lines 83-93 of `runWorker`). -/
def stepCmdDone (clk : Nat → Nat) (st : State) (i : Nat) (out : CmdOutcome) : Option State :=
  match st.workerPCs.get? i with
  | some (WorkerPC.executing command _ stateUpdate) =>
    let (stateUpdate, reads) := classifyOutcome stateUpdate out clk st.reads
    some { st with
      reads := reads
      workerPCs := st.workerPCs.set i (WorkerPC.sending command stateUpdate) }
  | _ => none

/-- A send on the queue handing `s` to worker `i`, parked at its receive. -/
def stepHandoff (clk : Nat → Nat) (st : State) (s : submission) (i : Nat) : Option State :=
  match st.workerPCs.get? i, st.r.queue.buf with
  | some (WorkerPC.receiving command), [] =>
    let (cmd, stateUpdate) := startSubmission command s (clk st.reads)
    some { st with
      reads := st.reads + 1
      workerPCs := st.workerPCs.set i (WorkerPC.executing command cmd stateUpdate) }
  | _, _ => none

/-- One step of the system. Nothing moves once the process has crashed. -/
def step (env : Option String) (clk : Nat → Nat) (st : State) (l : Label) : Option State :=
  if st.crashed then none
  else
    match l with
    | Label.run => stepRun st
    | Label.stop => if st.stopCh then none else some { st with stopCh := true }
    | Label.submit s => (submit st.r s).map (fun r => { st with r := r })
    | Label.handoff s i => stepHandoff clk st s i
    | Label.worker i => stepWorker env clk st i
    | Label.cmdDone i out => stepCmdDone clk st i out

/-- The state after the steps of `trace`, in order; `none` when one of them is
not possible. -/
def exec (env : Option String) (clk : Nat → Nat) : State → List Label → Option State
  | st, [] => some st
  | st, l :: trace =>
    match step env clk st l with
    | none => none
    | some st1 => exec env clk st1 trace

/-- Whether a worker is inside `cmd.Output()`. -/
def WorkerPC.isExecuting : WorkerPC → Bool
  | WorkerPC.executing _ _ _ => true
  | _ => false

/-- The number of external commands currently executing. -/
def executingCount (st : State) : Nat :=
  st.workerPCs.countP WorkerPC.isExecuting

/-- Whether a label is a completed call of `submit`. -/
def Label.isSubmission : Label → Bool
  | Label.submit _ => true
  | Label.handoff _ _ => true
  | _ => false

/-- The command and the state update of each iteration of the loop of
`runWorker` over `items`, in order, when `reads` clock readings precede. -/
def iterations (command : String) (clk : Nat → Nat) :
    Nat → List (submission × CmdOutcome) → List (Cmd × appStateUpdate)
  | _, [] => []
  | reads, (s, out) :: rest =>
    let p := processSubmission command clk reads s out
    (p.1, p.2.1) :: iterations command clk p.2.2 rest

/-- The number of clock readings after the iterations over `items`. -/
def readsAfter (command : String) (clk : Nat → Nat) :
    Nat → List (submission × CmdOutcome) → Nat
  | reads, [] => reads
  | reads, (s, out) :: rest =>
    readsAfter command clk (processSubmission command clk reads s out).2.2 rest

/-- The fields of a path: the runs of bytes between its separators. -/
def pathFields : List Char → List (List Char)
  | [] => [[]]
  | c :: t =>
    if c = '/' then [] :: pathFields t
    else
      match pathFields t with
      | [] => [[c]]
      | f :: fs => (c :: f) :: fs

/-- The rules of the shortest equivalent path, one element at a time, on the
elements kept so far: an empty element and `.` are dropped; `..` removes the
element before it when that is a name, is dropped at the root, and is kept
otherwise; a name is kept. -/
def specStep (rooted : Bool) (kept : List (List Char)) (e : List Char) : List (List Char) :=
  if e = [] ∨ e = ['.'] then kept
  else if e = ['.', '.'] then
    match kept.getLast? with
    | some l => if l = ['.', '.'] then kept ++ [e] else kept.dropLast
    | none => if rooted then kept else kept ++ [e]
  else kept ++ [e]

/-- The elements of a list put together with one separator between each two. -/
def joinElems : List (List Char) → List Char
  | [] => []
  | [e] => e
  | e :: e1 :: es => e ++ '/' :: joinElems (e1 :: es)

/-- A path with the elements `kept`, after the root if `rooted`. -/
def renderPath (rooted : Bool) (kept : List (List Char)) : List Char :=
  (if rooted then ['/'] else []) ++ joinElems kept

/-- The elements kept of the path `rest`, `kept` being kept already. -/
def specFold (rooted : Bool) (kept : List (List Char)) (rest : List Char) : List (List Char) :=
  (pathFields rest).foldl (specStep rooted) kept

/-- The shortest path lexically equivalent to `path`: its elements after
`specStep`, with single separators between them, after the root if the path
has one; `.` for the empty result. -/
def specCleanChars (path : List Char) : List Char :=
  if path = [] then ['.']
  else
    let rooted : Bool := path.head? = some '/'
    let out := renderPath rooted (specFold rooted [] path)
    if out = [] then ['.'] else out

/-- The write index `dotdot` of `filepath.Clean` when `k` elements `..` lead
the output. -/
def dotdotIndex (rooted : Bool) (k : Nat) : Nat :=
  if rooted then 1 else (joinElems (List.replicate k ['.', '.'])).length

/-- A name: an element that is not empty, holds no separator and is not `..`. -/
def IsName (e : List Char) : Prop :=
  e ≠ [] ∧ (∀ c ∈ e, c ≠ '/') ∧ e ≠ ['.', '.']

/-- The spec's location of the executable, `join(h, rel)`: the relative path
`rel` beneath the directory `h`, that is the two put together with a separator
between them, as the shortest lexically equivalent path. -/
def specJoin (h rel : String) : String := ⟨specCleanChars (h ++ "/" ++ rel).data⟩

/-- The invariant of the worker pool of a runner made with `W` workers: the
runner keeps its worker count and queue capacity, there are at most `W` worker
goroutines, and while `run` is in its loop the loop counter is their number. -/
def poolInv (W : Int) (st : State) : Prop :=
  st.r.workers = W ∧ st.r.queue.cap = W.toNat ∧ (st.workerPCs.length : Int) ≤ W ∧
    ∀ i : Int, st.runPC = RunPC.spawning i → i = st.workerPCs.length

/-- What holds while nothing has been submitted: the queue is empty, nothing
has been sent beyond `sent0`, no goroutine has panicked, every worker is before
or at its receive, and the reporting channel has been closed, once, exactly
when `run` has returned. -/
def idleInv (sent0 : List appStateUpdate) (st : State) : Prop :=
  st.r.queue.buf = [] ∧ st.r.appStateReportingChan.sent = sent0 ∧ st.crashed = false ∧
    (∀ pc ∈ st.workerPCs, pc = WorkerPC.supervised ∨ pc = WorkerPC.exited ∨
      ∃ c, pc = WorkerPC.receiving c) ∧
    (st.runPC = RunPC.returned → st.r.appStateReportingChan.closed = true ∧ st.closes = 1) ∧
    (st.runPC ≠ RunPC.returned → st.r.appStateReportingChan.closed = false ∧ st.closes = 0)

/-- The number of steps `run` still takes before it has returned, once the
stop signal has fired. -/
def runStepsLeft (st : State) : Nat :=
  match st.runPC with
  | RunPC.spawning i => (st.r.workers - i).toNat + 2
  | RunPC.awaitingStop => 1
  | RunPC.returned => 0

/-- A submission used in the examples. -/
def demoSubmission : submission :=
  { appID := "app-1", appName := "pi", args := ["--class", "Pi", "pi.jar"] }

/-- The runner `newSparkSubmitRunner avail 1 ch` makes, `ch` open and unused. -/
def demoRunner : sparkSubmitRunner :=
  { workers := 1, queue := { cap := 1, buf := [] },
    appStateReportingChan := { closed := false, sent := [] } }

/-- An execution of `demoRunner`: `run` starts the worker and waits for the
stop signal, the worker enters `runWorker`, a submission arrives and the worker
dequeues it and starts its command. -/
def demoBusyTrace : List Label :=
  [Label.run, Label.run, Label.worker 0, Label.submit demoSubmission, Label.worker 0]

/-- The state `demoBusyTrace` leads to: the command is executing. -/
def demoBusyState : State :=
  { r := demoRunner
    stopCh := false
    runPC := RunPC.awaitingStop
    workerPCs := [WorkerPC.executing "/bin/spark-submit"
      (Command "/bin/spark-submit" demoSubmission.args)
      { appID := "app-1", submissionTime := Now 0, completionTime := Time.zero,
        state := ApplicationStateType.unset, errorMessage := "" }]
    closes := 0
    reads := 1
    crashed := false }

/-- The execution `demoBusyTrace` continued: the stop signal fires while the
command is executing, `run` closes the reporting channel and returns, and the
command then exits with code 0. -/
def demoStopTrace : List Label :=
  demoBusyTrace ++ [Label.stop, Label.run, Label.cmdDone 0 (CmdOutcome.success "")]

/-- The state `demoStopTrace` leads to: the reporting channel is closed and the
worker is about to send its state update. -/
def demoStopState : State :=
  { r := { demoRunner with appStateReportingChan := { closed := true, sent := [] } }
    stopCh := true
    runPC := RunPC.returned
    workerPCs := [WorkerPC.sending "/bin/spark-submit"
      { appID := "app-1", submissionTime := Now 0, completionTime := Now 1,
        state := ApplicationStateType.CompletedState, errorMessage := "" }]
    closes := 1
    reads := 2
    crashed := false }

/-- The state after the worker's send in `demoStopState`: the send hit the
closed channel, the worker panicked and the process is over. -/
def demoCrashState : State :=
  { demoStopState with workerPCs := [WorkerPC.panicked], crashed := true }

/-- The runner `newSparkSubmitRunner avail 2 ch` makes, `ch` open and unused. -/
def demoRunner2 : sparkSubmitRunner :=
  { workers := 2, queue := { cap := 2, buf := [] },
    appStateReportingChan := { closed := false, sent := [] } }

/-- An execution of `demoRunner2` without submissions: the stop signal fires
when `run` has started both workers and the first has entered `runWorker`. -/
def demoIdleTrace : List Label :=
  [Label.run, Label.worker 0, Label.run, Label.stop, Label.worker 1]

/-- The state `demoIdleTrace` leads to. -/
def demoIdleState : State :=
  { r := demoRunner2
    stopCh := true
    runPC := RunPC.spawning 2
    workerPCs := [WorkerPC.receiving "/bin/spark-submit", WorkerPC.exited]
    closes := 0
    reads := 0
    crashed := false }

/-! ## The worker loop -/

theorem chanSend_open (ch : ReportChan) (u : appStateUpdate) (h : ch.closed = false) :
    chanSend ch u = some { closed := false, sent := ch.sent ++ [u] } := by
  cases ch with
  | mk c sent =>
    simp only at h
    subst h
    rfl

theorem runWorkerLoop_open (command : String) (clk : Nat → Nat)
    (items : List (submission × CmdOutcome)) :
    ∀ w : WorkerRun, w.ch.closed = false →
      runWorkerLoop command clk items w =
        { execs := w.execs ++ (iterations command clk w.reads items).map Prod.fst
          ch := { closed := false
                  sent := w.ch.sent ++ (iterations command clk w.reads items).map Prod.snd }
          reads := readsAfter command clk w.reads items
          panicked := w.panicked } := by
  induction items with
  | nil =>
    intro w h
    cases w with
    | mk execs ch reads panicked =>
      cases ch with
      | mk c sent =>
        simp only at h
        subst h
        simp [runWorkerLoop, iterations, readsAfter]
  | cons it rest ih =>
    intro w h
    obtain ⟨s, out⟩ := it
    rw [runWorkerLoop]
    simp only [chanSend_open w.ch _ h]
    rw [ih _ rfl]
    simp [iterations, readsAfter, List.append_assoc]

theorem Now_not_zero (n : Nat) : (Now n).IsZero = false := by
  simp [Now, Time.IsZero, unixToInternal]

theorem Now_le_Now {a b : Nat} (h : a ≤ b) : Now a ≤ Now b := by
  show (Now a).ns ≤ (Now b).ns
  simp only [Now]
  omega

/-- C1: when the command of a dequeued submission exits with code 0, the state
update the worker sends has state `Completed` and a completion time that is
set and, the clock being non-decreasing, not before the submission time. -/
theorem runWorker_exit_zero_completed (command : String) (clk : Nat → Nat) (w : WorkerRun)
    (s : submission) (stdout : String) (hopen : w.ch.closed = false)
    (hclk : ∀ a b : Nat, a ≤ b → clk a ≤ clk b) :
    ∃ u : appStateUpdate,
      (runWorkerLoop command clk [(s, CmdOutcome.success stdout)] w).ch.sent
          = w.ch.sent ++ [u] ∧
        u.appID = s.appID ∧
        u.state = ApplicationStateType.CompletedState ∧
        u.completionTime.IsZero = false ∧
        u.submissionTime ≤ u.completionTime := by
  rw [runWorkerLoop_open command clk _ w hopen]
  refine ⟨(processSubmission command clk w.reads s (CmdOutcome.success stdout)).2.1,
    by simp [iterations], rfl, rfl, ?_, ?_⟩
  · exact Now_not_zero _
  · exact Now_le_Now (hclk _ _ (Nat.le_succ _))

theorem runWorker_exit_zero_completed_witness :
    ∃ u : appStateUpdate,
      (runWorkerLoop "/opt/spark/bin/spark-submit" (fun n => 5 * n)
          [(⟨"app-1", "pi", ["--class", "Pi"]⟩, CmdOutcome.success "")]
          ⟨[], ⟨false, []⟩, 3, false⟩).ch.sent
          = (⟨[], ⟨false, []⟩, 3, false⟩ : WorkerRun).ch.sent ++ [u] ∧
        u.appID = (⟨"app-1", "pi", ["--class", "Pi"]⟩ : submission).appID ∧
        u.state = ApplicationStateType.CompletedState ∧
        u.completionTime.IsZero = false ∧
        u.submissionTime ≤ u.completionTime :=
  runWorker_exit_zero_completed "/opt/spark/bin/spark-submit" (fun n => 5 * n)
    ⟨[], ⟨false, []⟩, 3, false⟩ ⟨"app-1", "pi", ["--class", "Pi"]⟩ "" rfl
    (fun _ _ h => Nat.mul_le_mul_left 5 h)

/-- C2: when the command of a dequeued submission exits with a non-zero code
and standard error `e` was captured, the state update the worker sends has
state `Failed` and error message exactly `e`. -/
theorem runWorker_exit_nonzero_failed (command : String) (clk : Nat → Nat) (w : WorkerRun)
    (s : submission) (stdout e : String) (hopen : w.ch.closed = false) :
    ∃ u : appStateUpdate,
      (runWorkerLoop command clk [(s, CmdOutcome.exitError stdout e)] w).ch.sent
          = w.ch.sent ++ [u] ∧
        u.appID = s.appID ∧
        u.state = ApplicationStateType.FailedSubmissionState ∧
        u.errorMessage = e := by
  rw [runWorkerLoop_open command clk _ w hopen]
  exact ⟨(processSubmission command clk w.reads s (CmdOutcome.exitError stdout e)).2.1,
    by simp [iterations], rfl, rfl, rfl⟩

theorem runWorker_exit_nonzero_failed_witness :
    ∃ u : appStateUpdate,
      (runWorkerLoop "/opt/spark/bin/spark-submit" (fun n => n)
          [(⟨"app-1", "pi", ["--class", "Pi"]⟩, CmdOutcome.exitError "" "boom")]
          ⟨[], ⟨false, []⟩, 0, false⟩).ch.sent
          = (⟨[], ⟨false, []⟩, 0, false⟩ : WorkerRun).ch.sent ++ [u] ∧
        u.appID = (⟨"app-1", "pi", ["--class", "Pi"]⟩ : submission).appID ∧
        u.state = ApplicationStateType.FailedSubmissionState ∧
        u.errorMessage = "boom" :=
  runWorker_exit_nonzero_failed "/opt/spark/bin/spark-submit" (fun n => n)
    ⟨[], ⟨false, []⟩, 0, false⟩ ⟨"app-1", "pi", ["--class", "Pi"]⟩ "" "boom" rfl

theorem runWorkerLoop_closed (command : String) (clk : Nat → Nat)
    (items : List (submission × CmdOutcome)) (w : WorkerRun) (h : w.ch.closed = true) :
    (runWorkerLoop command clk items w).ch = w.ch := by
  cases items with
  | nil => rfl
  | cons it rest =>
    obtain ⟨s, out⟩ := it
    rw [runWorkerLoop]
    simp [chanSend, h]

theorem mem_iterations (command : String) (clk : Nat → Nat)
    (items : List (submission × CmdOutcome)) :
    ∀ (reads : Nat) (p : Cmd × appStateUpdate), p ∈ iterations command clk reads items →
      ∃ (n : Nat) (s : submission) (out : CmdOutcome), (s, out) ∈ items ∧
        p = ((processSubmission command clk n s out).1,
             (processSubmission command clk n s out).2.1) := by
  induction items with
  | nil =>
    intro reads p hp
    simp [iterations] at hp
  | cons it rest ih =>
    intro reads p hp
    obtain ⟨s, out⟩ := it
    simp only [iterations, List.mem_cons] at hp
    rcases hp with hp | hp
    · exact ⟨reads, s, out, List.mem_cons_self _ _, hp⟩
    · obtain ⟨n, s1, out1, hmem, heq⟩ := ih _ p hp
      exact ⟨n, s1, out1, List.mem_cons_of_mem _ hmem, heq⟩

theorem processSubmission_invariant (command : String) (clk : Nat → Nat) (n : Nat)
    (s : submission) (out : CmdOutcome) :
    let u := (processSubmission command clk n s out).2.1
    u.appID = s.appID ∧
    (u.completionTime.IsZero = false ↔ u.state = ApplicationStateType.CompletedState) ∧
    (u.errorMessage ≠ "" →
      u.state = ApplicationStateType.FailedSubmissionState ∧
        ∃ stdout : String, out = CmdOutcome.exitError stdout u.errorMessage) := by
  cases out with
  | success stdout =>
    refine ⟨rfl, ?_, ?_⟩
    · exact ⟨fun _ => rfl, fun _ => Now_not_zero _⟩
    · intro h
      exact absurd rfl h
  | exitError stdout e =>
    refine ⟨rfl, ?_, ?_⟩
    · constructor
      · intro h
        simp [processSubmission, startSubmission, classifyOutcome, Time.IsZero, Time.zero] at h
      · intro h
        simp [processSubmission, startSubmission, classifyOutcome] at h
    · intro _
      exact ⟨rfl, stdout, rfl⟩
  | otherError msg =>
    refine ⟨rfl, ?_, ?_⟩
    · constructor
      · intro h
        simp [processSubmission, startSubmission, classifyOutcome, Time.IsZero, Time.zero] at h
      · intro h
        simp [processSubmission, startSubmission, classifyOutcome] at h
    · intro h
      exact absurd rfl h

/-- C3: every state update `runWorker` sends, whatever the submissions and the
outcomes of their commands, has its completion time set exactly when its state
is `Completed`, and a non-empty error message only when its state is `Failed`
and the command of its submission ended in an exit error carrying that text as
captured standard error. -/
theorem runWorker_update_invariant (envs : Nat → Option String) (clk : Nat → Nat)
    (items : List (submission × CmdOutcome)) (ch : ReportChan) :
    ∃ us : List appStateUpdate,
      (runWorker envs clk items ch).ch.sent = ch.sent ++ us ∧
      ∀ u ∈ us,
        (u.completionTime.IsZero = false ↔ u.state = ApplicationStateType.CompletedState) ∧
        (u.errorMessage ≠ "" →
          u.state = ApplicationStateType.FailedSubmissionState ∧
            ∃ (s : submission) (stdout : String),
              (s, CmdOutcome.exitError stdout u.errorMessage) ∈ items ∧ u.appID = s.appID) := by
  cases hc : ch.closed with
  | true =>
    refine ⟨[], ?_, by simp⟩
    rw [runWorker, runWorkerLoop_closed _ _ _ _ hc]
    simp
  | false =>
    refine ⟨(iterations (sparkSubmitCommand (envs 0)) clk 0 items).map Prod.snd, ?_, ?_⟩
    · rw [runWorker, runWorkerLoop_open _ _ _ _ hc]
    · intro u hu
      obtain ⟨p, hp, rfl⟩ := List.mem_map.mp hu
      obtain ⟨n, s, out, hmem, rfl⟩ := mem_iterations _ _ _ _ _ hp
      obtain ⟨hid, htime, herr⟩ :=
        processSubmission_invariant (sparkSubmitCommand (envs 0)) clk n s out
      refine ⟨htime, fun hne => ?_⟩
      obtain ⟨hst, stdout, hout⟩ := herr hne
      refine ⟨hst, s, stdout, ?_, hid⟩
      rw [← hout]
      exact hmem

theorem runWorker_open_updates (envs : Nat → Option String) (clk : Nat → Nat)
    (items : List (submission × CmdOutcome)) (ch : ReportChan) (hopen : ch.closed = false) :
    ∃ us : List appStateUpdate,
      (runWorker envs clk items ch).ch.sent = ch.sent ++ us ∧
      (runWorker envs clk items ch).panicked = false ∧
      us.length = items.length ∧
      us.map appStateUpdate.appID = items.map (fun it => it.1.appID) := by
  refine ⟨(iterations (sparkSubmitCommand (envs 0)) clk 0 items).map Prod.snd, ?_, ?_, ?_, ?_⟩
  · rw [runWorker, runWorkerLoop_open _ _ _ _ hopen]
  · rw [runWorker, runWorkerLoop_open _ _ _ _ hopen]
  · generalize sparkSubmitCommand (envs 0) = command
    generalize 0 = reads
    induction items generalizing reads with
    | nil => rfl
    | cons it rest ih =>
      obtain ⟨s, out⟩ := it
      simp only [iterations, List.map_cons, List.length_cons]
      rw [ih]
  · generalize sparkSubmitCommand (envs 0) = command
    generalize 0 = reads
    induction items generalizing reads with
    | nil => rfl
    | cons it rest ih =>
      obtain ⟨s, out⟩ := it
      simp only [iterations, List.map_cons]
      rw [ih, (processSubmission_invariant command clk reads s out).1]

/-! ## `filepath.Clean` and a doubled separator -/

theorem dropWhile_append_sep (x s : List Char) :
    (x ++ '/' :: s).dropWhile (fun a => a ≠ '/') = x.dropWhile (fun a => a ≠ '/') ++ '/' :: s := by
  induction x with
  | nil => simp [List.dropWhile]
  | cons c t ih =>
    by_cases hc : c = '/'
    · simp [List.dropWhile, hc]
    · simp only [List.cons_append, List.dropWhile_cons, hc, ne_eq, not_false_eq_true,
        decide_True, if_true]
      exact ih

theorem takeWhile_append_sep (x s : List Char) :
    (x ++ '/' :: s).takeWhile (fun a => a ≠ '/') = x.takeWhile (fun a => a ≠ '/') := by
  induction x with
  | nil => simp [List.takeWhile]
  | cons c t ih =>
    by_cases hc : c = '/'
    · simp [List.takeWhile, hc]
    · simp only [List.cons_append, List.takeWhile_cons, hc, ne_eq, not_false_eq_true,
        decide_True, if_true]
      rw [ih]

theorem cleanLoop_fuel (rooted : Bool) :
    ∀ (f1 f2 : Nat) (rest out : List Char) (dd : Nat), rest.length ≤ f1 → rest.length ≤ f2 →
      cleanLoop rooted f1 rest out dd = cleanLoop rooted f2 rest out dd := by
  intro f1
  induction f1 with
  | zero =>
    intro f2 rest out dd h1 _
    have hr : rest = [] := List.length_eq_zero.mp (Nat.le_zero.mp h1)
    subst hr
    cases f2 <;> simp [cleanLoop]
  | succ f1 ih =>
    intro f2 rest out dd h1 h2
    cases rest with
    | nil => cases f2 <;> simp [cleanLoop]
    | cons c t =>
      cases f2 with
      | zero => simp at h2
      | succ f2 =>
        simp only [List.length_cons, Nat.add_le_add_iff_right] at h1 h2
        have ht1 : t.tail.length ≤ f1 := by simp; omega
        have ht2 : t.tail.length ≤ f2 := by simp; omega
        have hd : c ≠ '/' → ((c :: t).dropWhile (fun x => x ≠ '/')).length ≤ t.length := by
          intro hc
          simp only [List.dropWhile_cons, hc, ne_eq, not_false_eq_true, decide_True, if_true]
          exact (List.dropWhile_sublist _).length_le
        simp only [cleanLoop]
        split_ifs with hc <;>
          first
          | exact ih _ _ _ _ h1 h2
          | exact ih _ _ _ _ ht1 ht2
          | exact ih _ _ _ _ (le_trans (hd hc) h1) (le_trans (hd hc) h2)

theorem cleanLoop_sep (rooted : Bool) (f : Nat) (t out : List Char) (dd : Nat) :
    cleanLoop rooted (f + 1) ('/' :: t) out dd = cleanLoop rooted f t out dd := by
  simp [cleanLoop]

theorem cleanLoop_dot (rooted : Bool) (f : Nat) (t out : List Char) (dd : Nat)
    (h : t = [] ∨ t.head? = some '/') :
    cleanLoop rooted (f + 1) ('.' :: t) out dd = cleanLoop rooted f t out dd := by
  rw [cleanLoop]
  simp [h]

theorem cleanLoop_dotdot (rooted : Bool) (f : Nat) (t out : List Char) (dd : Nat)
    (h : t = [] ∨ t.head? = some '/') :
    cleanLoop rooted (f + 1) ('.' :: '.' :: t) out dd =
      if out.length > dd then
        cleanLoop rooted f t (out.take (cleanBacktrack out dd (out.length - 1))) dd
      else if !rooted then
        cleanLoop rooted f t ((if out.length > 0 then out ++ ['/'] else out) ++ ['.', '.'])
          ((if out.length > 0 then out ++ ['/'] else out) ++ ['.', '.']).length
      else cleanLoop rooted f t out dd := by
  rw [cleanLoop]
  simp [h]

theorem cleanLoop_elem (rooted : Bool) (f : Nat) (c : Char) (t out : List Char) (dd : Nat)
    (hc : c ≠ '/') (h2 : ¬ (c = '.' ∧ (t = [] ∨ t.head? = some '/')))
    (h3 : ¬ (c = '.' ∧ t.head? = some '.' ∧ (t.tail = [] ∨ t.tail.head? = some '/'))) :
    cleanLoop rooted (f + 1) (c :: t) out dd =
      cleanLoop rooted f ((c :: t).dropWhile (fun x => x ≠ '/'))
        ((if (rooted ∧ out.length ≠ 1) ∨ (!rooted ∧ out.length ≠ 0) then out ++ ['/'] else out)
          ++ (c :: t).takeWhile (fun x => x ≠ '/')) dd := by
  rw [cleanLoop]
  simp only [hc, h2, h3, if_false]

theorem cleanLoop_suffix_congr (rooted : Bool) (s1 s2 : List Char)
    (H : ∀ (f1 f2 : Nat) (out : List Char) (dd : Nat), s1.length + 1 ≤ f1 → s2.length + 1 ≤ f2 →
      cleanLoop rooted f1 ('/' :: s1) out dd = cleanLoop rooted f2 ('/' :: s2) out dd) :
    ∀ (n : Nat) (x : List Char), x.length ≤ n →
      ∀ (f1 f2 : Nat) (out : List Char) (dd : Nat),
        (x ++ '/' :: s1).length ≤ f1 → (x ++ '/' :: s2).length ≤ f2 →
        cleanLoop rooted f1 (x ++ '/' :: s1) out dd
          = cleanLoop rooted f2 (x ++ '/' :: s2) out dd := by
  intro n
  induction n with
  | zero =>
    intro x hx f1 f2 out dd h1 h2
    have hr : x = [] := List.length_eq_zero.mp (Nat.le_zero.mp hx)
    subst hr
    exact H f1 f2 out dd (by simpa using h1) (by simpa using h2)
  | succ n ih =>
    intro x hx f1 f2 out dd h1 h2
    cases x with
    | nil => exact H f1 f2 out dd (by simpa using h1) (by simpa using h2)
    | cons c t =>
      simp only [List.cons_append, List.length_cons, List.length_append] at h1 h2 hx
      obtain ⟨g1, rfl⟩ : ∃ g, f1 = g + 1 := ⟨f1 - 1, by omega⟩
      obtain ⟨g2, rfl⟩ : ∃ g, f2 = g + 1 := ⟨f2 - 1, by omega⟩
      have ht : t.length ≤ n := by omega
      -- the recursive calls on a shorter prefix agree
      have ihs : ∀ (y : List Char), y.length ≤ t.length → ∀ (o : List Char) (d : Nat),
          cleanLoop rooted g1 (y ++ '/' :: s1) o d = cleanLoop rooted g2 (y ++ '/' :: s2) o d := by
        intro y hy o d
        apply ih y (le_trans hy ht)
        · simp only [List.length_append, List.length_cons]; omega
        · simp only [List.length_append, List.length_cons]; omega
      -- the branch of a real path element
      have hdef : c ≠ '/' → ∀ o : List Char,
          cleanLoop rooted g1 ((c :: (t ++ '/' :: s1)).dropWhile (fun a => a ≠ '/'))
              (o ++ (c :: (t ++ '/' :: s1)).takeWhile (fun a => a ≠ '/')) dd
            = cleanLoop rooted g2 ((c :: (t ++ '/' :: s2)).dropWhile (fun a => a ≠ '/'))
              (o ++ (c :: (t ++ '/' :: s2)).takeWhile (fun a => a ≠ '/')) dd := by
        intro hc o
        have e1 := dropWhile_append_sep (c :: t) s1
        have e2 := dropWhile_append_sep (c :: t) s2
        have e3 := takeWhile_append_sep (c :: t) s1
        have e4 := takeWhile_append_sep (c :: t) s2
        simp only [List.cons_append] at e1 e2 e3 e4
        rw [e1, e2, e3, e4]
        have hlen : ((c :: t).dropWhile (fun a => a ≠ '/')).length ≤ t.length := by
          simp only [List.dropWhile_cons, hc, ne_eq, not_false_eq_true, decide_True, if_true]
          exact (List.dropWhile_sublist _).length_le
        exact ihs _ hlen _ _
      show cleanLoop rooted (g1 + 1) (c :: (t ++ '/' :: s1)) out dd
        = cleanLoop rooted (g2 + 1) (c :: (t ++ '/' :: s2)) out dd
      by_cases hc : c = '/'
      · subst hc
        rw [cleanLoop_sep, cleanLoop_sep]
        exact ihs t le_rfl _ _
      · by_cases hd : c = '.'
        · subst hd
          cases t with
          | nil =>
            rw [cleanLoop_dot _ _ _ _ _ (by simp), cleanLoop_dot _ _ _ _ _ (by simp)]
            exact ihs [] le_rfl _ _
          | cons c2 t2 =>
            by_cases hc2 : c2 = '/'
            · subst hc2
              rw [cleanLoop_dot _ _ _ _ _ (by simp), cleanLoop_dot _ _ _ _ _ (by simp)]
              exact ihs _ le_rfl _ _
            · by_cases hd2 : c2 = '.'
              · subst hd2
                have hdd : ∀ s : List Char, (t2 ++ '/' :: s = [] ∨ (t2 ++ '/' :: s).head? = some '/')
                    ↔ (t2 = [] ∨ t2.head? = some '/') := by
                  intro s
                  cases t2 <;> simp
                by_cases h3 : t2 = [] ∨ t2.head? = some '/'
                · show cleanLoop rooted (g1 + 1) ('.' :: '.' :: (t2 ++ '/' :: s1)) out dd
                    = cleanLoop rooted (g2 + 1) ('.' :: '.' :: (t2 ++ '/' :: s2)) out dd
                  rw [cleanLoop_dotdot _ _ _ _ _ ((hdd s1).mpr h3),
                    cleanLoop_dotdot _ _ _ _ _ ((hdd s2).mpr h3)]
                  have hl : t2.length ≤ ('.' :: t2).length := by simp
                  split_ifs <;> exact ihs t2 hl _ _
                · show cleanLoop rooted (g1 + 1) ('.' :: ('.' :: t2 ++ '/' :: s1)) out dd
                    = cleanLoop rooted (g2 + 1) ('.' :: ('.' :: t2 ++ '/' :: s2)) out dd
                  rw [cleanLoop_elem _ _ _ _ _ _ hc (by simp)
                      (by simp only [List.cons_append, List.tail_cons, hdd, h3]; simp),
                    cleanLoop_elem _ _ _ _ _ _ hc (by simp)
                      (by simp only [List.cons_append, List.tail_cons, hdd, h3]; simp)]
                  exact hdef hc _
              · show cleanLoop rooted (g1 + 1) ('.' :: (c2 :: t2 ++ '/' :: s1)) out dd
                  = cleanLoop rooted (g2 + 1) ('.' :: (c2 :: t2 ++ '/' :: s2)) out dd
                rw [cleanLoop_elem _ _ _ _ _ _ hc (by simp [hc2]) (by simp [hd2]),
                  cleanLoop_elem _ _ _ _ _ _ hc (by simp [hc2]) (by simp [hd2])]
                exact hdef hc _
        · rw [cleanLoop_elem _ _ _ _ _ _ hc (by simp [hd]) (by simp [hd]),
            cleanLoop_elem _ _ _ _ _ _ hc (by simp [hd]) (by simp [hd])]
          exact hdef hc _

theorem cleanChars_double_sep (h s : List Char) (hne : h ≠ []) :
    cleanChars (h ++ '/' :: '/' :: s) = cleanChars (h ++ '/' :: s) := by
  have H : ∀ (rooted : Bool) (f1 f2 : Nat) (out : List Char) (dd : Nat),
      ('/' :: s).length + 1 ≤ f1 → s.length + 1 ≤ f2 →
      cleanLoop rooted f1 ('/' :: '/' :: s) out dd = cleanLoop rooted f2 ('/' :: s) out dd := by
    intro rooted f1 f2 out dd h1 h2
    obtain ⟨g1, rfl⟩ : ∃ g, f1 = g + 1 := ⟨f1 - 1, by omega⟩
    rw [cleanLoop_sep]
    exact cleanLoop_fuel rooted _ _ _ _ _ (by simp only [List.length_cons] at h1 ⊢; omega)
      (by simp only [List.length_cons]; omega)
  cases h with
  | nil => exact absurd rfl hne
  | cons c t =>
    have e1 : cleanLoop (decide (c = '/')) (c :: t ++ '/' :: '/' :: s).length
          (if c = '/' then t ++ '/' :: '/' :: s else c :: t ++ '/' :: '/' :: s)
          (if c = '/' then ['/'] else []) (if c = '/' then 1 else 0)
        = cleanLoop (decide (c = '/')) (c :: t ++ '/' :: s).length
          (if c = '/' then t ++ '/' :: s else c :: t ++ '/' :: s)
          (if c = '/' then ['/'] else []) (if c = '/' then 1 else 0) := by
      by_cases hc : c = '/'
      · simp only [hc, if_true]
        exact cleanLoop_suffix_congr _ _ _ (H _) t.length t le_rfl _ _ _ _
          (by simp) (by simp)
      · simp only [hc, if_false]
        exact cleanLoop_suffix_congr _ _ _ (H _) (c :: t).length (c :: t) le_rfl _ _ _ _
          (by simp) (by simp)
    simp only [cleanChars, List.cons_append, List.head?_cons, Option.some.injEq, List.tail_cons,
      reduceCtorEq, if_false] at e1 ⊢
    rw [e1]

theorem intercalate_pair (a b : String) : "/".intercalate [a, b] = a ++ "/" ++ b := by
  simp [String.intercalate, String.intercalate.go]

theorem sparkSubmitCommand_eq_clean (env : Option String) :
    sparkSubmitCommand env = Clean ((LookupEnv env).1 ++ "/" ++ "bin/spark-submit") := by
  unfold sparkSubmitCommand
  generalize (LookupEnv env).1 = home
  by_cases hh : home = ""
  · subst hh
    decide
  · have hd : home.data ≠ [] := by
      intro h0
      apply hh
      exact String.ext h0
    simp only [Join, hh, ne_eq, not_false_eq_true, if_true, intercalate_pair]
    unfold Clean
    congr 1
    have := cleanChars_double_sep home.data "bin/spark-submit".data hd
    simpa [String.data_append] using this

/-! ## `filepath.Clean` against the rules of the shortest path -/

theorem pathFields_cons (c : Char) (t : List Char) (hc : c ≠ '/') :
    pathFields (c :: t) =
      match pathFields t with
      | [] => [[c]]
      | f :: fs => (c :: f) :: fs := by
  rw [pathFields, if_neg hc]

theorem pathFields_append_sep (x r : List Char) (hx : ∀ c ∈ x, c ≠ '/') :
    pathFields (x ++ '/' :: r) = x :: pathFields r := by
  induction x with
  | nil => simp [pathFields]
  | cons c x ih =>
    have hc : c ≠ '/' := hx c (List.mem_cons_self _ _)
    have ih1 := ih (fun d hd => hx d (List.mem_cons_of_mem _ hd))
    show pathFields (c :: (x ++ '/' :: r)) = (c :: x) :: pathFields r
    rw [pathFields_cons c _ hc, ih1]

theorem pathFields_no_sep (x : List Char) (hx : ∀ c ∈ x, c ≠ '/') : pathFields x = [x] := by
  induction x with
  | nil => rfl
  | cons c x ih =>
    have hc : c ≠ '/' := hx c (List.mem_cons_self _ _)
    have ih1 := ih (fun d hd => hx d (List.mem_cons_of_mem _ hd))
    rw [pathFields_cons c _ hc, ih1]

theorem specFold_nil (rooted : Bool) (kept : List (List Char)) :
    specFold rooted kept [] = kept := by
  simp [specFold, pathFields, specStep]

theorem specFold_sep (rooted : Bool) (kept : List (List Char)) (t : List Char) :
    specFold rooted kept ('/' :: t) = specFold rooted kept t := by
  simp [specFold, pathFields, specStep]

theorem takeWhile_no_sep (x : List Char) : ∀ c ∈ x.takeWhile (fun a => a ≠ '/'), c ≠ '/' := by
  intro c hc
  have := List.mem_takeWhile_imp hc
  simpa using this

theorem dropWhile_nil_or_sep (x : List Char) :
    x.dropWhile (fun a => a ≠ '/') = [] ∨
      ∃ r, x.dropWhile (fun a => a ≠ '/') = '/' :: r := by
  induction x with
  | nil => exact Or.inl rfl
  | cons c x ih =>
    by_cases hc : c = '/'
    · exact Or.inr ⟨x, by simp [List.dropWhile, hc]⟩
    · simp only [List.dropWhile_cons, hc, ne_eq, not_false_eq_true, decide_True, if_true]
      exact ih

theorem specFold_elem (rooted : Bool) (kept : List (List Char)) (x : List Char) :
    specFold rooted kept x =
      specFold rooted (specStep rooted kept (x.takeWhile (fun a => a ≠ '/')))
        (x.dropWhile (fun a => a ≠ '/')) := by
  have hsplit : x = x.takeWhile (fun a => a ≠ '/') ++ x.dropWhile (fun a => a ≠ '/') :=
    (List.takeWhile_append_dropWhile _ _).symm
  rcases dropWhile_nil_or_sep x with h0 | ⟨r, hr⟩
  · rw [h0, specFold_nil]
    rw [h0, List.append_nil] at hsplit
    rw [← hsplit]
    have hx : ∀ c ∈ x, c ≠ '/' := by
      rw [hsplit]
      exact takeWhile_no_sep x
    unfold specFold
    rw [pathFields_no_sep x hx]
    rfl
  · rw [hr, specFold_sep]
    conv_lhs => rw [hsplit, hr]
    unfold specFold
    rw [pathFields_append_sep _ r (takeWhile_no_sep x)]
    rfl

theorem takeWhile_eq_nil_iff (t : List Char) :
    t.takeWhile (fun a => a ≠ '/') = [] ↔ (t = [] ∨ t.head? = some '/') := by
  cases t with
  | nil => simp
  | cons c t =>
    by_cases hc : c = '/'
    · simp [List.takeWhile, hc]
    · simp [List.takeWhile, hc]

theorem dropWhile_of_takeWhile_nil (t : List Char)
    (h : t.takeWhile (fun a => a ≠ '/') = []) : t.dropWhile (fun a => a ≠ '/') = t := by
  have h2 := List.takeWhile_append_dropWhile (fun a => decide (a ≠ '/')) t
  rw [h, List.nil_append] at h2
  exact h2

theorem takeWhile_cons_ne (c : Char) (t : List Char) (hc : c ≠ '/') :
    (c :: t).takeWhile (fun a => a ≠ '/') = c :: t.takeWhile (fun a => a ≠ '/') := by
  simp only [List.takeWhile_cons, hc, ne_eq, not_false_eq_true, decide_True, if_true]

theorem dropWhile_cons_ne (c : Char) (t : List Char) (hc : c ≠ '/') :
    (c :: t).dropWhile (fun a => a ≠ '/') = t.dropWhile (fun a => a ≠ '/') := by
  simp only [List.dropWhile_cons, hc, ne_eq, not_false_eq_true, decide_True, if_true]

theorem cleanLoop_dot_elem (rooted : Bool) (f : Nat) (c : Char) (t out : List Char) (dd : Nat)
    (hc : c ≠ '/') (he : (c :: t).takeWhile (fun a => a ≠ '/') = ['.']) :
    cleanLoop rooted (f + 1) (c :: t) out dd
      = cleanLoop rooted f ((c :: t).dropWhile (fun a => a ≠ '/')) out dd := by
  rw [takeWhile_cons_ne c t hc] at he
  rw [dropWhile_cons_ne c t hc]
  have h1 : c = '.' := List.head_eq_of_cons_eq he
  have h2 : t.takeWhile (fun a => a ≠ '/') = [] := List.tail_eq_of_cons_eq he
  subst h1
  rw [dropWhile_of_takeWhile_nil t h2]
  exact cleanLoop_dot rooted f t out dd ((takeWhile_eq_nil_iff t).mp h2)

theorem cleanLoop_dotdot_elem (rooted : Bool) (f : Nat) (c : Char) (t out : List Char)
    (dd : Nat) (hc : c ≠ '/') (he : (c :: t).takeWhile (fun a => a ≠ '/') = ['.', '.']) :
    cleanLoop rooted (f + 1) (c :: t) out dd =
      if out.length > dd then
        cleanLoop rooted f ((c :: t).dropWhile (fun a => a ≠ '/'))
          (out.take (cleanBacktrack out dd (out.length - 1))) dd
      else if !rooted then
        cleanLoop rooted f ((c :: t).dropWhile (fun a => a ≠ '/'))
          ((if out.length > 0 then out ++ ['/'] else out) ++ ['.', '.'])
          ((if out.length > 0 then out ++ ['/'] else out) ++ ['.', '.']).length
      else cleanLoop rooted f ((c :: t).dropWhile (fun a => a ≠ '/')) out dd := by
  rw [takeWhile_cons_ne c t hc] at he
  rw [dropWhile_cons_ne c t hc]
  have h1 : c = '.' := List.head_eq_of_cons_eq he
  have h2 : t.takeWhile (fun a => a ≠ '/') = ['.'] := List.tail_eq_of_cons_eq he
  subst h1
  cases t with
  | nil => simp at h2
  | cons c2 t2 =>
    have hc2 : c2 ≠ '/' := by
      intro h0
      rw [h0] at h2
      simp [List.takeWhile] at h2
    rw [takeWhile_cons_ne c2 t2 hc2] at h2
    rw [dropWhile_cons_ne c2 t2 hc2]
    have h3 : c2 = '.' := List.head_eq_of_cons_eq h2
    have h4 : t2.takeWhile (fun a => a ≠ '/') = [] := List.tail_eq_of_cons_eq h2
    subst h3
    rw [dropWhile_of_takeWhile_nil t2 h4]
    exact cleanLoop_dotdot rooted f t2 out dd ((takeWhile_eq_nil_iff t2).mp h4)

theorem cleanLoop_name_elem (rooted : Bool) (f : Nat) (c : Char) (t out : List Char) (dd : Nat)
    (hc : c ≠ '/') (h1 : (c :: t).takeWhile (fun a => a ≠ '/') ≠ ['.'])
    (h2 : (c :: t).takeWhile (fun a => a ≠ '/') ≠ ['.', '.']) :
    cleanLoop rooted (f + 1) (c :: t) out dd =
      cleanLoop rooted f ((c :: t).dropWhile (fun a => a ≠ '/'))
        ((if (rooted ∧ out.length ≠ 1) ∨ (!rooted ∧ out.length ≠ 0) then out ++ ['/'] else out)
          ++ (c :: t).takeWhile (fun a => a ≠ '/')) dd := by
  apply cleanLoop_elem rooted f c t out dd hc
  · rintro ⟨hd, ht⟩
    apply h1
    rw [takeWhile_cons_ne c t hc, hd, (takeWhile_eq_nil_iff t).mpr ht]
  · rintro ⟨hd, ht, ht2⟩
    apply h2
    cases t with
    | nil => simp at ht
    | cons c2 t2 =>
      simp only [List.head?_cons, Option.some.injEq] at ht
      simp only [List.tail_cons] at ht2
      subst ht
      subst hd
      rw [takeWhile_cons_ne _ _ (by decide), takeWhile_cons_ne _ _ (by decide),
        (takeWhile_eq_nil_iff t2).mpr ht2]

theorem joinElems_append (a b : List (List Char)) (ha : a ≠ []) (hb : b ≠ []) :
    joinElems (a ++ b) = joinElems a ++ '/' :: joinElems b := by
  induction a with
  | nil => exact absurd rfl ha
  | cons x a ih =>
    cases a with
    | nil =>
      cases b with
      | nil => exact absurd rfl hb
      | cons y b => rfl
    | cons x1 a =>
      have h := ih (by simp)
      simp only [List.cons_append] at h ⊢
      simp only [joinElems, h, List.append_assoc, List.cons_append]

theorem joinElems_snoc (a : List (List Char)) (e : List Char) (ha : a ≠ []) :
    joinElems (a ++ [e]) = joinElems a ++ '/' :: e :=
  joinElems_append a [e] ha (by simp)

theorem joinElems_ne_nil (a : List (List Char)) (ha : a ≠ []) (hne : ∀ e ∈ a, e ≠ []) :
    joinElems a ≠ [] := by
  cases a with
  | nil => exact absurd rfl ha
  | cons x a =>
    have hx : x ≠ [] := hne x (List.mem_cons_self _ _)
    cases a with
    | nil => simpa [joinElems] using hx
    | cons x1 a => simp [joinElems, hx]

theorem kept_elems_ne_nil (k : Nat) (reals : List (List Char))
    (hn : ∀ e ∈ reals, IsName e) :
    ∀ e ∈ List.replicate k ['.', '.'] ++ reals, e ≠ [] := by
  intro e he
  rcases List.mem_append.mp he with h | h
  · rw [(List.mem_replicate.mp h).2]
    simp
  · exact (hn e h).1

theorem render_length_ge (rooted : Bool) (k : Nat) (reals : List (List Char))
    (hr : rooted = true → k = 0) :
    dotdotIndex rooted k ≤ (renderPath rooted (List.replicate k ['.', '.'] ++ reals)).length := by
  cases rooted with
  | true =>
    simp [dotdotIndex, renderPath]
  | false =>
    simp only [dotdotIndex, renderPath, Bool.false_eq_true, if_false, List.nil_append]
    by_cases hk : List.replicate k ['.', '.'] = []
    · simp [hk, joinElems]
    · by_cases hb : reals = []
      · simp [hb]
      · rw [joinElems_append _ _ hk hb]
        simp

theorem render_length_eq (rooted : Bool) (k : Nat) (hr : rooted = true → k = 0) :
    (renderPath rooted (List.replicate k ['.', '.'])).length = dotdotIndex rooted k := by
  cases rooted with
  | true =>
    have hk := hr rfl
    subst hk
    simp [dotdotIndex, renderPath, joinElems]
  | false => simp [dotdotIndex, renderPath]

theorem render_length_gt (rooted : Bool) (k : Nat) (reals : List (List Char))
    (hr : rooted = true → k = 0) (hn : ∀ e ∈ reals, IsName e) (hne : reals ≠ []) :
    dotdotIndex rooted k < (renderPath rooted (List.replicate k ['.', '.'] ++ reals)).length := by
  have hj : joinElems reals ≠ [] := joinElems_ne_nil reals hne (fun e he => (hn e he).1)
  have hpos : 0 < (joinElems reals).length := List.length_pos.mpr hj
  cases rooted with
  | true =>
    have hk := hr rfl
    subst hk
    simp only [dotdotIndex, renderPath, if_true, List.replicate_zero, List.nil_append,
      List.singleton_append, List.length_cons]
    omega
  | false =>
    simp only [dotdotIndex, renderPath, Bool.false_eq_true, if_false, List.nil_append]
    by_cases hk : List.replicate k ['.', '.'] = []
    · simp only [hk, List.nil_append, joinElems, List.length_nil]
      exact hpos
    · rw [joinElems_append _ _ hk hne]
      simp

theorem cleanBacktrack_stop (out : List Char) (dd w : Nat)
    (h : ¬ (w + 1 > dd ∧ out.get? (w + 1) ≠ some '/')) :
    cleanBacktrack out dd (w + 1) = w + 1 := by
  rw [cleanBacktrack, if_neg h]

theorem cleanBacktrack_back (out : List Char) (dd w : Nat)
    (h : w + 1 > dd ∧ out.get? (w + 1) ≠ some '/') :
    cleanBacktrack out dd (w + 1) = cleanBacktrack out dd w := by
  rw [cleanBacktrack, if_pos h]

theorem cleanBacktrack_to_base (base s e : List Char) (dd : Nat)
    (hsep : ∀ c ∈ e, c ≠ '/') (hdd : dd ≤ base.length)
    (hs : s = ['/'] ∨ (s = [] ∧ base.length = dd)) :
    ∀ w : Nat, base.length ≤ w → w < (base ++ s ++ e).length →
      cleanBacktrack (base ++ s ++ e) dd w = base.length := by
  intro w
  induction w with
  | zero =>
    intro h0 _
    have : base.length = 0 := by omega
    rw [this]
    rfl
  | succ w ih =>
    intro hle hlt
    by_cases hw : w + 1 = base.length
    · rw [cleanBacktrack_stop, hw]
      rintro ⟨hgt, hget⟩
      rcases hs with hs | ⟨_, hs⟩
      · apply hget
        rw [hs, hw, List.get?_eq_getElem?, List.append_assoc,
          List.getElem?_append_right (le_refl _)]
        simp
      · omega
    · have hgt : base.length < w + 1 := by omega
      rw [cleanBacktrack_back]
      · exact ih (by omega) (by omega)
      · refine ⟨by omega, ?_⟩
        intro hget
        rw [List.get?_eq_getElem?, List.append_assoc,
          List.getElem?_append_right (by omega)] at hget
        rcases hs with hs | ⟨hs, _⟩
        · rw [hs] at hget
          rw [List.getElem?_append_right (by simp; omega)] at hget
          exact hsep _ (List.getElem?_mem hget) rfl
        · rw [hs, List.nil_append] at hget
          exact hsep _ (List.getElem?_mem hget) rfl

theorem cleanBacktrack_take (base s e : List Char) (dd : Nat) (he : e ≠ [])
    (hsep : ∀ c ∈ e, c ≠ '/') (hdd : dd ≤ base.length)
    (hs : s = ['/'] ∨ (s = [] ∧ base.length = dd)) :
    (base ++ s ++ e).take
        (cleanBacktrack (base ++ s ++ e) dd ((base ++ s ++ e).length - 1)) = base := by
  have hpos : 0 < e.length := List.length_pos.mpr he
  rw [cleanBacktrack_to_base base s e dd hsep hdd hs _
    (by simp only [List.length_append]; omega) (by simp only [List.length_append]; omega)]
  rw [List.append_assoc]
  exact List.take_left _ _

theorem render_backtrack (rooted : Bool) (k : Nat) (reals : List (List Char)) (e : List Char)
    (hr : rooted = true → k = 0) (he : IsName e) :
    (renderPath rooted (List.replicate k ['.', '.'] ++ (reals ++ [e]))).take
        (cleanBacktrack (renderPath rooted (List.replicate k ['.', '.'] ++ (reals ++ [e])))
          (dotdotIndex rooted k)
          ((renderPath rooted (List.replicate k ['.', '.'] ++ (reals ++ [e]))).length - 1))
      = renderPath rooted (List.replicate k ['.', '.'] ++ reals) := by
  rw [← List.append_assoc]
  by_cases hK : List.replicate k ['.', '.'] ++ reals = []
  · have hout : renderPath rooted (List.replicate k ['.', '.'] ++ reals ++ [e])
        = renderPath rooted (List.replicate k ['.', '.'] ++ reals) ++ [] ++ e := by
      simp [hK, renderPath, joinElems]
    rw [hout]
    apply cleanBacktrack_take _ _ _ _ he.1 he.2.1 (render_length_ge rooted k reals hr)
    refine Or.inr ⟨rfl, ?_⟩
    have hreals : reals = [] := (List.append_eq_nil.mp hK).2
    rw [hreals, List.append_nil]
    exact render_length_eq rooted k hr
  · have hout : renderPath rooted (List.replicate k ['.', '.'] ++ reals ++ [e])
        = renderPath rooted (List.replicate k ['.', '.'] ++ reals) ++ ['/'] ++ e := by
      rw [renderPath, renderPath, joinElems_snoc _ e hK]
      simp only [List.append_assoc, List.singleton_append]
    rw [hout]
    exact cleanBacktrack_take _ _ _ _ he.1 he.2.1 (render_length_ge rooted k reals hr)
      (Or.inl rfl)

theorem render_push (rooted : Bool) (kept : List (List Char)) (e : List Char)
    (hne : ∀ x ∈ kept, x ≠ []) :
    (if (rooted ∧ (renderPath rooted kept).length ≠ 1) ∨
          (!rooted ∧ (renderPath rooted kept).length ≠ 0)
        then renderPath rooted kept ++ ['/'] else renderPath rooted kept) ++ e
      = renderPath rooted (kept ++ [e]) := by
  by_cases hK : kept = []
  · subst hK
    cases rooted <;> simp [renderPath, joinElems]
  · have hj : joinElems kept ≠ [] := joinElems_ne_nil kept hK hne
    have hpos : 0 < (joinElems kept).length := List.length_pos.mpr hj
    have hcond : (rooted = true ∧ (renderPath rooted kept).length ≠ 1) ∨
        ((!rooted) = true ∧ (renderPath rooted kept).length ≠ 0) := by
      cases rooted with
      | true =>
        left
        refine ⟨rfl, ?_⟩
        simp only [renderPath, if_true, List.singleton_append, List.length_cons]
        omega
      | false =>
        right
        refine ⟨rfl, ?_⟩
        simp only [renderPath, Bool.false_eq_true, if_false, List.nil_append]
        omega
    rw [if_pos hcond]
    simp only [renderPath, joinElems_snoc _ e hK, List.append_assoc, List.singleton_append]

theorem render_push_dots (k : Nat) :
    (if (renderPath false (List.replicate k ['.', '.'])).length > 0
        then renderPath false (List.replicate k ['.', '.']) ++ ['/']
        else renderPath false (List.replicate k ['.', '.'])) ++ ['.', '.']
      = renderPath false (List.replicate (k + 1) ['.', '.']) := by
  rw [List.replicate_succ']
  cases k with
  | zero => simp [renderPath, joinElems]
  | succ k =>
    have hK : List.replicate (k + 1) ['.', '.'] ≠ [] := by simp
    have hj : joinElems (List.replicate (k + 1) ['.', '.']) ≠ [] :=
      joinElems_ne_nil _ hK (fun x hx => by rw [(List.mem_replicate.mp hx).2]; simp)
    have hpos : 0 < (joinElems (List.replicate (k + 1) ['.', '.'])).length :=
      List.length_pos.mpr hj
    have hcond : (renderPath false (List.replicate (k + 1) ['.', '.'])).length > 0 := by
      simp only [renderPath, Bool.false_eq_true, if_false, List.nil_append]
      exact hpos
    rw [if_pos hcond]
    simp only [renderPath, Bool.false_eq_true, if_false, List.nil_append,
      joinElems_snoc _ _ hK, List.append_assoc, List.singleton_append]

theorem specStep_dot (rooted : Bool) (kept : List (List Char)) :
    specStep rooted kept ['.'] = kept := by
  simp [specStep]

theorem specStep_name (rooted : Bool) (kept : List (List Char)) (e : List Char)
    (h0 : e ≠ []) (h1 : e ≠ ['.']) (h2 : e ≠ ['.', '.']) :
    specStep rooted kept e = kept ++ [e] := by
  simp [specStep, h0, h1, h2]

theorem specStep_dots_pop (rooted : Bool) (kept : List (List Char)) (x : List Char)
    (hx : x ≠ ['.', '.']) :
    specStep rooted (kept ++ [x]) ['.', '.'] = kept := by
  simp [specStep, hx]

theorem specStep_dots_push (rooted : Bool) (k : Nat) :
    specStep rooted (List.replicate (k + 1) ['.', '.']) ['.', '.']
      = List.replicate (k + 2) ['.', '.'] := by
  rw [List.replicate_succ' (k + 1), List.replicate_succ' k]
  simp [specStep]

theorem specStep_dots_empty (rooted : Bool) :
    specStep rooted [] ['.', '.'] = if rooted then [] else [['.', '.']] := by
  cases rooted <;> simp [specStep]

theorem cleanLoop_spec (rooted : Bool) :
    ∀ (fuel : Nat) (rest : List Char) (k : Nat) (reals : List (List Char)),
      rest.length ≤ fuel → (rooted = true → k = 0) → (∀ e ∈ reals, IsName e) →
      cleanLoop rooted fuel rest (renderPath rooted (List.replicate k ['.', '.'] ++ reals))
          (dotdotIndex rooted k)
        = renderPath rooted (specFold rooted (List.replicate k ['.', '.'] ++ reals) rest) := by
  intro fuel
  induction fuel with
  | zero =>
    intro rest k reals hlen _ _
    have hr : rest = [] := List.length_eq_zero.mp (Nat.le_zero.mp hlen)
    subst hr
    rw [specFold_nil]
    rfl
  | succ f ih =>
    intro rest k reals hlen hr hn
    cases rest with
    | nil =>
      rw [specFold_nil]
      rfl
    | cons c t =>
      simp only [List.length_cons, Nat.add_le_add_iff_right] at hlen
      by_cases hc : c = '/'
      · subst hc
        rw [cleanLoop_sep, specFold_sep]
        exact ih t k reals hlen hr hn
      · have hdrop : ((c :: t).dropWhile (fun a => a ≠ '/')).length ≤ f := by
          rw [dropWhile_cons_ne c t hc]
          exact le_trans (List.dropWhile_sublist _).length_le hlen
        rw [specFold_elem]
        by_cases h1 : (c :: t).takeWhile (fun a => a ≠ '/') = ['.']
        · rw [cleanLoop_dot_elem rooted f c t _ _ hc h1, h1, specStep_dot]
          exact ih _ k reals hdrop hr hn
        · by_cases h2 : (c :: t).takeWhile (fun a => a ≠ '/') = ['.', '.']
          · rw [cleanLoop_dotdot_elem rooted f c t _ _ hc h2, h2]
            rcases List.eq_nil_or_concat reals with hnil | ⟨reals1, x, hx⟩
            · -- no name to remove
              subst hnil
              have hle : ¬ (renderPath rooted (List.replicate k ['.', '.'] ++ [])).length
                  > dotdotIndex rooted k := by
                rw [List.append_nil, render_length_eq rooted k hr]
                omega
              rw [if_neg hle]
              cases rooted with
              | true =>
                have hk := hr rfl
                subst hk
                simp only [Bool.not_true, Bool.false_eq_true, if_false, List.replicate_zero,
                  List.nil_append, specStep_dots_empty, if_true]
                exact ih _ 0 [] hdrop hr hn
              | false =>
                simp only [Bool.not_false, if_true, List.append_nil]
                rw [render_push_dots k, render_length_eq false (k + 1) (by simp)]
                have hstep : specStep false (List.replicate k ['.', '.']) ['.', '.']
                    = List.replicate (k + 1) ['.', '.'] ++ [] := by
                  cases k with
                  | zero => simp [specStep_dots_empty]
                  | succ k => rw [specStep_dots_push, List.append_nil]
                rw [hstep]
                have := ih ((c :: t).dropWhile (fun a => a ≠ '/')) (k + 1) [] hdrop (by simp)
                  (by simp)
                rw [List.append_nil] at this ⊢
                exact this
            · -- the last name is removed
              rw [List.concat_eq_append] at hx
              subst hx
              have hxn : IsName x := hn x (by simp)
              have hn1 : ∀ e ∈ reals1, IsName e := fun e he => hn e (by simp [he])
              have hgt := render_length_gt rooted k (reals1 ++ [x]) hr hn (by simp)
              rw [if_pos hgt, render_backtrack rooted k reals1 x hr hxn]
              have hstep : specStep rooted (List.replicate k ['.', '.'] ++ (reals1 ++ [x]))
                  ['.', '.'] = List.replicate k ['.', '.'] ++ reals1 := by
                rw [← List.append_assoc]
                exact specStep_dots_pop rooted _ x hxn.2.2
              rw [hstep]
              exact ih _ k reals1 hdrop hr hn1
          · -- a name
            have he : IsName ((c :: t).takeWhile (fun a => a ≠ '/')) := by
              refine ⟨?_, takeWhile_no_sep _, h2⟩
              rw [takeWhile_cons_ne c t hc]
              simp
            rw [cleanLoop_name_elem rooted f c t _ _ hc h1 h2,
              render_push rooted _ _ (kept_elems_ne_nil k reals hn),
              specStep_name rooted _ _ he.1 h1 h2, List.append_assoc]
            apply ih _ k _ hdrop hr
            intro e hmem
            rcases List.mem_append.mp hmem with h | h
            · exact hn e h
            · rw [List.mem_singleton.mp h]
              exact he

theorem cleanChars_eq_spec (path : List Char) : cleanChars path = specCleanChars path := by
  cases path with
  | nil => rfl
  | cons c t =>
    by_cases hc : c = '/'
    · subst hc
      have h := cleanLoop_spec true ('/' :: t).length t 0 [] (by simp) (fun _ => rfl) (by simp)
      simp only [List.replicate_zero, List.nil_append] at h
      have hd : dotdotIndex true 0 = 1 := rfl
      have hr : renderPath true [] = ['/'] := rfl
      rw [hd, hr] at h
      simp only [cleanChars, specCleanChars, List.head?_cons, List.tail_cons, reduceCtorEq,
        if_false, if_true, decide_True, h, specFold_sep]
      simp
    · have h := cleanLoop_spec false (c :: t).length (c :: t) 0 [] (by simp) (by simp) (by simp)
      simp only [List.replicate_zero, List.nil_append] at h
      have hd : dotdotIndex false 0 = 0 := rfl
      have hr : renderPath false [] = [] := rfl
      rw [hd, hr] at h
      have hh : ¬ (some c = some '/') := by simpa using hc
      simp only [cleanChars, specCleanChars, List.head?_cons, reduceCtorEq, if_false, hh,
        decide_False, Bool.false_eq_true, h]
      simp

theorem Clean_eq_spec (path : String) : Clean path = ⟨specCleanChars path.data⟩ := by
  rw [Clean, cleanChars_eq_spec]

theorem sparkSubmitCommand_eq_specJoin (h : String) :
    sparkSubmitCommand (some h) = specJoin h "bin/spark-submit" := by
  rw [sparkSubmitCommand_eq_clean, Clean_eq_spec]
  rfl

theorem Join_eq_specJoin (h rel : String) (hne : h ≠ "") : Join [h, rel] = specJoin h rel := by
  simp only [Join, hne, ne_eq, not_false_eq_true, if_true, intercalate_pair]
  rw [Clean_eq_spec]
  rfl

theorem iterations_cmds (command : String) (clk : Nat → Nat)
    (items : List (submission × CmdOutcome)) :
    ∀ reads : Nat, (iterations command clk reads items).map Prod.fst
      = items.map (fun it => Command command it.1.args) := by
  induction items with
  | nil => intro reads; rfl
  | cons it rest ih =>
    intro reads
    obtain ⟨s, out⟩ := it
    simp only [iterations, List.map_cons]
    rw [ih]
    rfl

/-- C10: for every value `h` of the toolchain directory, every way the
environment changes afterwards and every submission, the command vector the
worker executes is the executable path, `bin/spark-submit` beneath `h`,
followed by the arguments of the submission unchanged and in order; the path
is the one computed from the environment at the start of the invocation, the
same for every submission it processes; it is `/bin/spark-submit` when the
directory is not set (or set to the empty string), and for a non-empty `h` it
is what `filepath.Join` gives for `h` and `bin/spark-submit`. -/
theorem runWorker_command_vector (envs : Nat → Option String) (clk : Nat → Nat)
    (items : List (submission × CmdOutcome)) (ch : ReportChan) (hopen : ch.closed = false) :
    (∀ h : String, envs 0 = some h →
      (runWorker envs clk items ch).execs.map Cmd.Args
          = items.map (fun it => specJoin h "bin/spark-submit" :: it.1.args) ∧
        (h = "" → specJoin h "bin/spark-submit" = "/bin/spark-submit") ∧
        (h ≠ "" → specJoin h "bin/spark-submit" = Join [h, "bin/spark-submit"])) ∧
      (envs 0 = none →
        (runWorker envs clk items ch).execs.map Cmd.Args
          = items.map (fun it => "/bin/spark-submit" :: it.1.args)) := by
  have hexecs : (runWorker envs clk items ch).execs.map Cmd.Args
      = items.map (fun it => sparkSubmitCommand (envs 0) :: it.1.args) := by
    rw [runWorker, runWorkerLoop_open _ _ _ _ hopen]
    simp only [List.nil_append, iterations_cmds, List.map_map]
    rfl
  refine ⟨?_, ?_⟩
  · intro h henv
    refine ⟨?_, ?_, ?_⟩
    · rw [hexecs, henv, sparkSubmitCommand_eq_specJoin]
    · intro he
      rw [he]
      decide
    · intro hne
      exact (Join_eq_specJoin h "bin/spark-submit" hne).symm
  · intro henv
    rw [hexecs, henv]
    have hcmd : sparkSubmitCommand none = "/bin/spark-submit" := by decide
    rw [hcmd]

theorem runWorker_command_vector_witness :
    (runWorker
        (fun k => if k = 0 then some "/opt/spark/../spark2/" else some "/somewhere/else")
        (fun n => n)
        [(⟨"a1", "n1", ["--class", "Pi", "pi.jar"]⟩, CmdOutcome.success ""),
         (⟨"a2", "n2", ["--verbose"]⟩, CmdOutcome.exitError "" "boom")]
        ⟨false, []⟩).execs.map Cmd.Args
      = [["/opt/spark2/bin/spark-submit", "--class", "Pi", "pi.jar"],
         ["/opt/spark2/bin/spark-submit", "--verbose"]] :=
  ((runWorker_command_vector
      (fun k => if k = 0 then some "/opt/spark/../spark2/" else some "/somewhere/else")
      (fun n => n)
      [(⟨"a1", "n1", ["--class", "Pi", "pi.jar"]⟩, CmdOutcome.success ""),
       (⟨"a2", "n2", ["--verbose"]⟩, CmdOutcome.exitError "" "boom")]
      ⟨false, []⟩ rfl).1 "/opt/spark/../spark2/" rfl).1.trans (by decide)

/-- C7, as stated, fails: with `SPARK_HOME` not set and the executable not
found, the one state update sent has state `Failed` but carries no error
detail at all. -/
theorem unset_home_error_detail_counterexample :
    ¬ ∃ u : appStateUpdate,
      (runWorker (fun _ => none) (fun n => n)
          [(⟨"app-1", "pi", ["--class", "Pi"]⟩,
            CmdOutcome.otherError "fork/exec /bin/spark-submit: no such file or directory")]
          ⟨false, []⟩).ch.sent = [u] ∧
        u.state = ApplicationStateType.FailedSubmissionState ∧ u.errorMessage ≠ "" := by
  rintro ⟨u, hsent, _, hne⟩
  have hrun : (runWorker (fun _ => none) (fun n => n)
      [(⟨"app-1", "pi", ["--class", "Pi"]⟩,
        CmdOutcome.otherError "fork/exec /bin/spark-submit: no such file or directory")]
      ⟨false, []⟩).ch.sent
      = [⟨"app-1", Now 0, Time.zero, ApplicationStateType.FailedSubmissionState, ""⟩] := by
    decide
  rw [hrun] at hsent
  have hu := List.head_eq_of_cons_eq hsent
  rw [← hu] at hne
  exact hne rfl

/-- C7, amended: with `SPARK_HOME` not set when the worker starts, a submission
whose command cannot be started (the executable `/bin/spark-submit` is not
found) does not stop the worker; it yields exactly one state update, with
state `Failed`, no completion time and an empty error message, whatever the
submission and the start error. -/
theorem runWorker_unset_home_failed (envs : Nat → Option String) (clk : Nat → Nat)
    (s : submission) (msg : String) (ch : ReportChan) (henv : envs 0 = none)
    (hopen : ch.closed = false) :
    (runWorker envs clk [(s, CmdOutcome.otherError msg)] ch).execs
        = [Command "/bin/spark-submit" s.args] ∧
      (runWorker envs clk [(s, CmdOutcome.otherError msg)] ch).panicked = false ∧
      (runWorker envs clk [(s, CmdOutcome.otherError msg)] ch).ch.sent
        = ch.sent ++ [{ appID := s.appID
                        submissionTime := Now (clk 0)
                        completionTime := Time.zero
                        state := ApplicationStateType.FailedSubmissionState
                        errorMessage := "" }] := by
  rw [runWorker, runWorkerLoop_open _ _ _ _ hopen, henv]
  have hcmd : sparkSubmitCommand none = "/bin/spark-submit" := by decide
  rw [hcmd]
  exact ⟨rfl, rfl, rfl⟩

theorem runWorker_unset_home_failed_witness :
    (runWorker (fun _ => none) (fun n => 7 + n)
        [(⟨"app-1", "pi", ["--class", "Pi"]⟩,
          CmdOutcome.otherError "fork/exec /bin/spark-submit: no such file or directory")]
        ⟨false, []⟩).execs
        = [Command "/bin/spark-submit" (⟨"app-1", "pi", ["--class", "Pi"]⟩ : submission).args] ∧
      (runWorker (fun _ => none) (fun n => 7 + n)
        [(⟨"app-1", "pi", ["--class", "Pi"]⟩,
          CmdOutcome.otherError "fork/exec /bin/spark-submit: no such file or directory")]
        ⟨false, []⟩).panicked = false ∧
      (runWorker (fun _ => none) (fun n => 7 + n)
        [(⟨"app-1", "pi", ["--class", "Pi"]⟩,
          CmdOutcome.otherError "fork/exec /bin/spark-submit: no such file or directory")]
        ⟨false, []⟩).ch.sent
        = (⟨false, []⟩ : ReportChan).sent ++
          [{ appID := (⟨"app-1", "pi", ["--class", "Pi"]⟩ : submission).appID
             submissionTime := Now ((fun n => 7 + n) 0)
             completionTime := Time.zero
             state := ApplicationStateType.FailedSubmissionState
             errorMessage := "" }] :=
  runWorker_unset_home_failed (fun _ => none) (fun n => 7 + n)
    ⟨"app-1", "pi", ["--class", "Pi"]⟩
    "fork/exec /bin/spark-submit: no such file or directory" ⟨false, []⟩ rfl rfl

/-! ## The pool of workers -/

theorem step_not_crashed (env : Option String) (clk : Nat → Nat) (st st1 : State) (l : Label)
    (hstep : step env clk st l = some st1) : st.crashed = false := by
  cases hc : st.crashed with
  | false => rfl
  | true => simp [step, hc] at hstep

theorem step_poolInv (env : Option String) (clk : Nat → Nat) (W : Int) (st st1 : State)
    (l : Label) (hinv : poolInv W st) (hstep : step env clk st l = some st1) :
    poolInv W st1 := by
  obtain ⟨hw, hcap, hlen, hpc⟩ := hinv
  have hcr := step_not_crashed env clk st st1 l hstep
  cases l with
  | run =>
    simp only [step, hcr, Bool.false_eq_true, if_false] at hstep
    cases hrun : st.runPC with
    | spawning i =>
      have hi := hpc i hrun
      simp only [stepRun, hrun] at hstep
      by_cases hlt : i < st.r.workers
      · simp only [hlt, if_true, Option.some.injEq] at hstep
        subst hstep
        refine ⟨hw, hcap, ?_, ?_⟩
        · simp only [List.length_append, List.length_singleton]
          push_cast
          omega
        · intro j hj
          simp only [RunPC.spawning.injEq] at hj
          simp only [List.length_append, List.length_singleton]
          push_cast
          omega
      · simp only [hlt, if_false, Option.some.injEq] at hstep
        subst hstep
        exact ⟨hw, hcap, hlen, by intro j hj; cases hj⟩
    | awaitingStop =>
      simp only [stepRun, hrun] at hstep
      split_ifs at hstep
      · simp only [Option.some.injEq] at hstep
        subst hstep
        exact ⟨hw, hcap, hlen, by intro j hj; cases hj⟩
      · simp only [Option.some.injEq] at hstep
        subst hstep
        exact ⟨hw, hcap, hlen, by intro j hj; cases hj⟩
    | returned => simp [stepRun, hrun] at hstep
  | stop =>
    simp only [step, hcr, Bool.false_eq_true, if_false] at hstep
    split_ifs at hstep
    simp only [Option.some.injEq] at hstep
    subst hstep
    exact ⟨hw, hcap, hlen, hpc⟩
  | submit s =>
    simp only [step, hcr, Bool.false_eq_true, if_false, submit] at hstep
    split_ifs at hstep
    · simp only [Option.map_some', Option.some.injEq] at hstep
      subst hstep
      exact ⟨hw, hcap, hlen, hpc⟩
    · simp at hstep
  | handoff s i =>
    simp only [step, hcr, Bool.false_eq_true, if_false, stepHandoff] at hstep
    split at hstep
    · simp only [Option.some.injEq] at hstep
      subst hstep
      exact ⟨hw, hcap, by simpa using hlen, by simpa using hpc⟩
    · cases hstep
  | worker i =>
    simp only [step, hcr, Bool.false_eq_true, if_false, stepWorker] at hstep
    split at hstep
    · split_ifs at hstep <;>
      · simp only [Option.some.injEq] at hstep
        subst hstep
        exact ⟨hw, hcap, by simpa using hlen, by simpa using hpc⟩
    · split at hstep
      · cases hstep
      · simp only [Option.some.injEq] at hstep
        subst hstep
        exact ⟨hw, hcap, by simpa using hlen, by simpa using hpc⟩
    · split at hstep <;>
      · simp only [Option.some.injEq] at hstep
        subst hstep
        exact ⟨hw, hcap, by simpa using hlen, by simpa using hpc⟩
    · cases hstep
  | cmdDone i out =>
    simp only [step, hcr, Bool.false_eq_true, if_false, stepCmdDone] at hstep
    split at hstep
    · simp only [Option.some.injEq] at hstep
      subst hstep
      exact ⟨hw, hcap, by simpa using hlen, by simpa using hpc⟩
    · cases hstep

theorem exec_poolInv (env : Option String) (clk : Nat → Nat) (W : Int) (trace : List Label) :
    ∀ st st1 : State, poolInv W st → exec env clk st trace = some st1 → poolInv W st1 := by
  induction trace with
  | nil =>
    intro st st1 hinv h
    simp only [exec, Option.some.injEq] at h
    subst h
    exact hinv
  | cons l rest ih =>
    intro st st1 hinv h
    simp only [exec] at h
    cases hs : step env clk st l with
    | none => simp [hs] at h
    | some st2 =>
      simp only [hs] at h
      exact ih st2 st1 (step_poolInv env clk W st st2 l hinv hs) h

theorem exec_append (env : Option String) (clk : Nat → Nat) (a b : List Label) :
    ∀ st : State, exec env clk st (a ++ b) = (exec env clk st a).bind (fun s => exec env clk s b) := by
  induction a with
  | nil => intro st; rfl
  | cons l rest ih =>
    intro st
    simp only [List.cons_append, exec]
    cases hs : step env clk st l with
    | none => rfl
    | some st2 => exact ih st2

theorem makechan_some (avail : Nat) (W : Int) (q : Chan submission)
    (h : makechan avail W = some q) :
    0 ≤ W ∧ ptrSize * W.toNat ≤ maxAlloc - hchanSize ∧ ptrSize * W.toNat ≤ avail ∧
      q = { cap := W.toNat, buf := [] } := by
  unfold makechan at h
  split_ifs at h with hrange hmem
  simp only [Option.some.injEq] at h
  simp only [not_or, not_lt] at hrange
  exact ⟨hrange.1, hrange.2, by omega, h.symm⟩

theorem makechan_fits (avail : Nat) (W : Int) (hW : 0 ≤ W)
    (hrange : ptrSize * W.toNat ≤ maxAlloc - hchanSize) (hmem : ptrSize * W.toNat ≤ avail) :
    makechan avail W = some { cap := W.toNat, buf := [] } := by
  unfold makechan
  rw [if_neg (by simp only [not_or, not_lt]; exact ⟨hW, hrange⟩), if_neg (by omega)]

theorem newSparkSubmitRunner_some (avail : Nat) (W : Int) (ch : ReportChan)
    (r : sparkSubmitRunner) (h : newSparkSubmitRunner avail W ch = some r) :
    0 ≤ W ∧ r = { workers := W, queue := { cap := W.toNat, buf := [] },
                  appStateReportingChan := ch } := by
  unfold newSparkSubmitRunner at h
  cases hq : makechan avail W with
  | none => simp [hq] at h
  | some q =>
    obtain ⟨hW, _, _, rfl⟩ := makechan_some avail W q hq
    simp only [hq, Option.some.injEq] at h
    exact ⟨hW, h.symm⟩

theorem initState_poolInv (avail : Nat) (W : Int) (ch : ReportChan) (r : sparkSubmitRunner)
    (h : newSparkSubmitRunner avail W ch = some r) : poolInv W (initState r) := by
  obtain ⟨hW, rfl⟩ := newSparkSubmitRunner_some avail W ch r h
  refine ⟨rfl, rfl, ?_, ?_⟩
  · simpa [initState] using hW
  · intro i hi
    simp only [initState, RunPC.spawning.injEq] at hi
    simp [initState, ← hi]

/-- C8: in every state a runner with `W` workers reaches once `run` is called,
whatever the submissions and the interleaving, at most `W` external commands
are executing. -/
theorem executing_le_workers (env : Option String) (clk : Nat → Nat) (avail : Nat) (W : Int)
    (ch : ReportChan) (r : sparkSubmitRunner) (trace : List Label) (st : State)
    (hnew : newSparkSubmitRunner avail W ch = some r)
    (hexec : exec env clk (initState r) trace = some st) :
    (executingCount st : Int) ≤ W ∧ (st.workerPCs.length : Int) ≤ W := by
  obtain ⟨_, _, hlen, _⟩ :=
    exec_poolInv env clk W trace _ _ (initState_poolInv avail W ch r hnew) hexec
  refine ⟨?_, hlen⟩
  have hc : executingCount st ≤ st.workerPCs.length := List.countP_le_length _
  omega

theorem exec_submits (env : Option String) (clk : Nat → Nat) (ss : List submission) :
    ∀ st : State, st.crashed = false → st.r.queue.buf.length + ss.length ≤ st.r.queue.cap →
      exec env clk st (ss.map Label.submit) =
        some { st with r := { st.r with queue := { st.r.queue with buf := st.r.queue.buf ++ ss } } } := by
  induction ss with
  | nil =>
    intro st _ _
    simp [exec]
  | cons s rest ih =>
    intro st hcr hlen
    simp only [List.length_cons] at hlen
    have hlt : st.r.queue.buf.length < st.r.queue.cap := by omega
    simp only [List.map_cons, exec, step, hcr, Bool.false_eq_true, if_false, submit, hlt, if_true,
      Option.map_some']
    rw [ih _ rfl (by simp only [List.length_append, List.length_singleton]; omega)]
    simp [hcr]

/-- C5, as stated, fails: for `W = 2 ^ 62`, which is not negative, the
constructor creates no queue at all, `make` panicking with `size out of
range` (here in a process that could still allocate a terabyte). -/
theorem large_pool_counterexample :
    (0 : Int) ≤ 2 ^ 62 ∧
    ¬ ∃ r : sparkSubmitRunner,
      newSparkSubmitRunner (2 ^ 40) (2 ^ 62) { closed := false, sent := [] } = some r ∧
        (r.queue.cap : Int) = 2 ^ 62 := by
  refine ⟨by decide, ?_⟩
  rintro ⟨r, hr, _⟩
  have hnone : newSparkSubmitRunner (2 ^ 40) (2 ^ 62) { closed := false, sent := [] } = none := by
    decide
  rw [hnone] at hr
  cases hr

/-- C5, amended: for every `W ≥ 0` whose queue `make` can allocate (the buffer
of `W` pointers is within the range `makechan` accepts and within the memory
available), the constructor gives a queue of capacity exactly `W`, empty at
first; from any state of the runner, while no worker dequeues, submissions
that fit within the capacity are each accepted and are queued behind those
already there, in the order submitted; and with `W` submissions queued a
further `submit` cannot complete, so nothing is dropped or overwritten. -/
theorem submit_within_capacity (env : Option String) (clk : Nat → Nat) (avail : Nat) (W : Int)
    (ch : ReportChan) (hW : 0 ≤ W) (hrange : ptrSize * W.toNat ≤ maxAlloc - hchanSize)
    (hmem : ptrSize * W.toNat ≤ avail) :
    ∃ r : sparkSubmitRunner, newSparkSubmitRunner avail W ch = some r ∧
      (r.queue.cap : Int) = W ∧ r.queue.buf = [] ∧
      ∀ (trace : List Label) (st0 : State),
        exec env clk (initState r) trace = some st0 → st0.crashed = false →
        ∀ ss : List submission, ((st0.r.queue.buf.length + ss.length : Nat) : Int) ≤ W →
          ∃ st : State, exec env clk st0 (ss.map Label.submit) = some st ∧
            st.r.queue.buf = st0.r.queue.buf ++ ss ∧
            ((st.r.queue.buf.length : Int) = W →
              ∀ s : submission, step env clk st (Label.submit s) = none ∧
                ∀ i : Nat, step env clk st (Label.handoff s i) = none) := by
  have hnew : newSparkSubmitRunner avail W ch
      = some { workers := W, queue := { cap := W.toNat, buf := [] },
               appStateReportingChan := ch } := by
    simp only [newSparkSubmitRunner, makechan_fits avail W hW hrange hmem]
  refine ⟨_, hnew, by simp [hW], rfl, ?_⟩
  intro trace st0 hexec hcr ss hlen
  have hinv0 := exec_poolInv env clk W trace _ _ (initState_poolInv avail W ch _ hnew) hexec
  have hcap0 : st0.r.queue.cap = W.toNat := hinv0.2.1
  have hsub := exec_submits env clk ss st0 hcr (by rw [hcap0]; omega)
  refine ⟨_, hsub, rfl, ?_⟩
  intro hfull s
  have hinv := exec_poolInv env clk W _ _ _ hinv0 hsub
  obtain ⟨_, hcap, hpool, _⟩ := hinv
  simp only at hfull hcap hpool
  constructor
  · have hnlt : ¬ (st0.r.queue.buf ++ ss).length < st0.r.queue.cap := by
      rw [hcap0]; omega
    simp only [List.length_append] at hnlt hfull
    simp only [step, hcr, Bool.false_eq_true, if_false, submit, List.length_append, hnlt,
      Option.map_none']
  · intro i
    simp only [step, hcr, Bool.false_eq_true, if_false, stepHandoff]
    by_cases hz : W = 0
    · have hnil : st0.workerPCs = [] := by
        apply List.length_eq_zero.mp
        omega
      simp [hnil]
    · have hne : st0.r.queue.buf ++ ss ≠ [] := by
        intro h0
        rw [h0] at hfull
        simp at hfull
        exact hz hfull.symm
      split
      · rename_i hb
        exact absurd hb hne
      · rfl

theorem idle_set (pcs : List WorkerPC) (i : Nat) (new : WorkerPC)
    (h : ∀ pc ∈ pcs, pc = WorkerPC.supervised ∨ pc = WorkerPC.exited ∨
      ∃ c, pc = WorkerPC.receiving c)
    (hnew : new = WorkerPC.supervised ∨ new = WorkerPC.exited ∨ ∃ c, new = WorkerPC.receiving c) :
    ∀ pc ∈ pcs.set i new, pc = WorkerPC.supervised ∨ pc = WorkerPC.exited ∨
      ∃ c, pc = WorkerPC.receiving c := by
  intro pc hpc
  rcases List.mem_or_eq_of_mem_set hpc with hm | he
  · exact h pc hm
  · rw [he]
    exact hnew

theorem step_idleInv (env : Option String) (clk : Nat → Nat) (sent0 : List appStateUpdate)
    (st st1 : State) (l : Label) (hl : l.isSubmission = false) (hinv : idleInv sent0 st)
    (hstep : step env clk st l = some st1) :
    idleInv sent0 st1 ∧ (st.stopCh = true → st1.stopCh = true) := by
  obtain ⟨hq, hsent, hcr, hw, hret, hnret⟩ := hinv
  cases l with
  | run =>
    simp only [step, hcr, Bool.false_eq_true, if_false] at hstep
    cases hrun : st.runPC with
    | spawning i =>
      have hn := hnret (by rw [hrun]; simp)
      simp only [stepRun, hrun] at hstep
      split_ifs at hstep
      · simp only [Option.some.injEq] at hstep
        subst hstep
        refine ⟨⟨hq, hsent, hcr, ?_, (by intro h; cases h), fun _ => hn⟩, fun h => h⟩
        intro pc hpc
        rcases List.mem_append.mp hpc with hm | hm
        · exact hw pc hm
        · simp only [List.mem_singleton] at hm
          exact Or.inl hm
      · simp only [Option.some.injEq] at hstep
        subst hstep
        exact ⟨⟨hq, hsent, hcr, hw, (by intro h; cases h), fun _ => hn⟩, fun h => h⟩
    | awaitingStop =>
      have hn := hnret (by rw [hrun]; simp)
      simp only [stepRun, hrun, hn.1, Bool.false_eq_true, if_false] at hstep
      split_ifs at hstep
      simp only [Option.some.injEq] at hstep
      subst hstep
      refine ⟨⟨hq, hsent, hcr, hw, fun _ => ⟨rfl, ?_⟩, fun h => absurd rfl h⟩, fun h => h⟩
      simp [hn.2]
    | returned => simp [stepRun, hrun] at hstep
  | stop =>
    simp only [step, hcr, Bool.false_eq_true, if_false] at hstep
    split_ifs at hstep
    simp only [Option.some.injEq] at hstep
    subst hstep
    exact ⟨⟨hq, hsent, rfl, hw, hret, hnret⟩, fun _ => rfl⟩
  | submit s => cases hl
  | handoff s i => cases hl
  | worker i =>
    simp only [step, hcr, Bool.false_eq_true, if_false, stepWorker] at hstep
    split at hstep
    · split_ifs at hstep
      · simp only [Option.some.injEq] at hstep
        subst hstep
        exact ⟨⟨hq, hsent, rfl, idle_set _ _ _ hw (Or.inr (Or.inl rfl)), hret, hnret⟩, fun h => h⟩
      · simp only [Option.some.injEq] at hstep
        subst hstep
        exact ⟨⟨hq, hsent, rfl, idle_set _ _ _ hw (Or.inr (Or.inr ⟨_, rfl⟩)), hret, hnret⟩,
          fun h => h⟩
    · simp only [hq] at hstep
      cases hstep
    · rename_i command stateUpdate hget
      have hm := hw _ (List.get?_mem hget)
      simp at hm
    · cases hstep
  | cmdDone i out =>
    simp only [step, hcr, Bool.false_eq_true, if_false, stepCmdDone] at hstep
    split at hstep
    · rename_i command cmd stateUpdate hget
      have hm := hw _ (List.get?_mem hget)
      simp at hm
    · cases hstep

theorem exec_idleInv (env : Option String) (clk : Nat → Nat) (sent0 : List appStateUpdate)
    (trace : List Label) :
    ∀ st st1 : State, (∀ l ∈ trace, l.isSubmission = false) → idleInv sent0 st →
      exec env clk st trace = some st1 → idleInv sent0 st1 := by
  induction trace with
  | nil =>
    intro st st1 _ hinv h
    simp only [exec, Option.some.injEq] at h
    subst h
    exact hinv
  | cons l rest ih =>
    intro st st1 hq hinv h
    simp only [exec] at h
    cases hs : step env clk st l with
    | none => simp [hs] at h
    | some st2 =>
      simp only [hs] at h
      exact ih st2 st1 (fun l1 h1 => hq l1 (List.mem_cons_of_mem _ h1))
        (step_idleInv env clk sent0 st st2 l (hq l (List.mem_cons_self _ _)) hinv hs).1 h

theorem run_returns (env : Option String) (clk : Nat → Nat) (sent0 : List appStateUpdate) :
    ∀ (k : Nat) (st : State), idleInv sent0 st → st.stopCh = true → runStepsLeft st = k →
      ∃ st1 : State, exec env clk st (List.replicate k Label.run) = some st1 ∧
        idleInv sent0 st1 ∧ st1.runPC = RunPC.returned := by
  intro k
  induction k with
  | zero =>
    intro st hinv _ hk
    refine ⟨st, rfl, hinv, ?_⟩
    cases hrun : st.runPC with
    | spawning i => simp [runStepsLeft, hrun] at hk
    | awaitingStop => simp [runStepsLeft, hrun] at hk
    | returned => rfl
  | succ k ih =>
    intro st hinv hstop hk
    have hcr : st.crashed = false := hinv.2.2.1
    cases hrun : st.runPC with
    | returned => simp [runStepsLeft, hrun] at hk
    | awaitingStop =>
      have hclosed := (hinv.2.2.2.2.2 (by rw [hrun]; simp)).1
      simp only [runStepsLeft, hrun] at hk
      have hk0 : k = 0 := by omega
      subst hk0
      have hs : ∃ st2, step env clk st Label.run = some st2 ∧ st2.runPC = RunPC.returned := by
        simp [step, hcr, stepRun, hrun, hstop, hclosed]
      obtain ⟨st2, hs, hret⟩ := hs
      refine ⟨st2, ?_, (step_idleInv env clk sent0 st st2 Label.run rfl hinv hs).1, hret⟩
      simp [List.replicate, exec, hs]
    | spawning i =>
      simp only [runStepsLeft, hrun] at hk
      have hs : ∃ st2, step env clk st Label.run = some st2 ∧ runStepsLeft st2 = k := by
        by_cases hlt : i < st.r.workers
        · refine ⟨_, by simp only [step, hcr, stepRun, hrun, hlt]; rfl, ?_⟩
          simp only [runStepsLeft]
          omega
        · refine ⟨_, by simp only [step, hcr, stepRun, hrun, hlt]; rfl, ?_⟩
          simp only [runStepsLeft]
          omega
      obtain ⟨st2, hs, hleft⟩ := hs
      obtain ⟨hinv2, hstop2⟩ := step_idleInv env clk sent0 st st2 Label.run rfl hinv hs
      obtain ⟨st1, hex, hinv1, hret⟩ := ih st2 hinv2 (hstop2 hstop) hleft
      refine ⟨st1, ?_, hinv1, hret⟩
      simp only [List.replicate_succ, exec, hs]
      exact hex

/-- C9: when nothing is ever submitted (the queue stays empty, no worker ever
dequeues) and the stop signal has fired, in whatever state the runner then is,
no state update has been sent, no goroutine has panicked and the reporting
channel has been closed at most once; and `run`, given its remaining steps,
returns with the reporting channel closed exactly once, still no state update
sent and no panic. -/
theorem run_stop_idle (env : Option String) (clk : Nat → Nat) (avail : Nat) (W : Int)
    (ch : ReportChan) (r : sparkSubmitRunner) (trace : List Label) (st : State)
    (hnew : newSparkSubmitRunner avail W ch = some r) (hopen : ch.closed = false)
    (hidle : ∀ l ∈ trace, l.isSubmission = false)
    (hexec : exec env clk (initState r) trace = some st) (hstop : st.stopCh = true) :
    (st.r.appStateReportingChan.sent = ch.sent ∧ st.crashed = false ∧ st.closes ≤ 1 ∧
      WorkerPC.panicked ∉ st.workerPCs) ∧
    ∃ st1 : State,
      exec env clk st (List.replicate (runStepsLeft st) Label.run) = some st1 ∧
      st1.runPC = RunPC.returned ∧
      st1.r.appStateReportingChan.closed = true ∧ st1.closes = 1 ∧
      st1.r.appStateReportingChan.sent = ch.sent ∧
      st1.crashed = false ∧ WorkerPC.panicked ∉ st1.workerPCs := by
  obtain ⟨_, rfl⟩ := newSparkSubmitRunner_some avail W ch r hnew
  have h0 : idleInv ch.sent (initState
      { workers := W, queue := { cap := W.toNat, buf := [] }, appStateReportingChan := ch }) := by
    refine ⟨rfl, rfl, rfl, ?_, ?_, ?_⟩
    · intro pc hpc
      simp [initState] at hpc
    · intro h
      simp [initState] at h
    · intro _
      exact ⟨hopen, rfl⟩
  have hinv := exec_idleInv env clk ch.sent trace _ _ hidle h0 hexec
  have hnp : ∀ s : State, idleInv ch.sent s → WorkerPC.panicked ∉ s.workerPCs := by
    intro s hs hmem
    have := hs.2.2.2.1 _ hmem
    simp at this
  refine ⟨⟨hinv.2.1, hinv.2.2.1, ?_, hnp st hinv⟩, ?_⟩
  · by_cases hr : st.runPC = RunPC.returned
    · rw [(hinv.2.2.2.2.1 hr).2]
    · rw [(hinv.2.2.2.2.2 hr).2]
      omega
  · obtain ⟨st1, hex, hinv1, hret⟩ := run_returns env clk ch.sent _ st hinv hstop rfl
    exact ⟨st1, hex, hret, (hinv1.2.2.2.2.1 hret).1, (hinv1.2.2.2.2.1 hret).2, hinv1.2.1,
      hinv1.2.2.1, hnp st1 hinv1⟩

theorem executing_le_workers_witness :
    (executingCount demoBusyState : Int) ≤ 1 ∧ (demoBusyState.workerPCs.length : Int) ≤ 1 :=
  executing_le_workers none (fun n => n) (2 ^ 30) 1 { closed := false, sent := [] } demoRunner
    demoBusyTrace demoBusyState (by decide) (by decide)

theorem submit_within_capacity_witness :
    ∃ r : sparkSubmitRunner,
      newSparkSubmitRunner (2 ^ 30) 2 { closed := false, sent := [] } = some r ∧
      (r.queue.cap : Int) = 2 ∧ r.queue.buf = [] ∧
      ∀ (trace : List Label) (st0 : State),
        exec none (fun n => n) (initState r) trace = some st0 → st0.crashed = false →
        ∀ ss : List submission, ((st0.r.queue.buf.length + ss.length : Nat) : Int) ≤ 2 →
          ∃ st : State, exec none (fun n => n) st0 (ss.map Label.submit) = some st ∧
            st.r.queue.buf = st0.r.queue.buf ++ ss ∧
            ((st.r.queue.buf.length : Int) = 2 →
              ∀ s : submission, step none (fun n => n) st (Label.submit s) = none ∧
                ∀ i : Nat, step none (fun n => n) st (Label.handoff s i) = none) :=
  submit_within_capacity none (fun n => n) (2 ^ 30) 2 { closed := false, sent := [] }
    (by decide) (by decide) (by decide)

theorem run_stop_idle_witness :
    (demoIdleState.r.appStateReportingChan.sent = ({ closed := false, sent := [] } : ReportChan).sent ∧
      demoIdleState.crashed = false ∧ demoIdleState.closes ≤ 1 ∧
      WorkerPC.panicked ∉ demoIdleState.workerPCs) ∧
    ∃ st1 : State,
      exec none (fun n => n) demoIdleState
        (List.replicate (runStepsLeft demoIdleState) Label.run) = some st1 ∧
      st1.runPC = RunPC.returned ∧
      st1.r.appStateReportingChan.closed = true ∧ st1.closes = 1 ∧
      st1.r.appStateReportingChan.sent = ({ closed := false, sent := [] } : ReportChan).sent ∧
      st1.crashed = false ∧ WorkerPC.panicked ∉ st1.workerPCs :=
  run_stop_idle none (fun n => n) (2 ^ 30) 2 { closed := false, sent := [] } demoRunner2
    demoIdleTrace
    demoIdleState (by decide) rfl (by decide) (by decide) rfl

/-- C6, on the code: with one worker, the stop signal fires while the worker's
command is executing; `run` closes the reporting channel (once) and returns;
the command then ends and the worker sends its state update on the closed
channel, which panics. -/
theorem send_after_close :
    newSparkSubmitRunner (2 ^ 30) 1 { closed := false, sent := [] } = some demoRunner ∧
    exec none (fun n => n) (initState demoRunner) demoStopTrace = some demoStopState ∧
    demoStopState.r.appStateReportingChan.closed = true ∧ demoStopState.closes = 1 ∧
    step none (fun n => n) demoStopState (Label.worker 0)
      = some { demoStopState with workerPCs := [WorkerPC.panicked], crashed := true } := by
  refine ⟨by decide, by decide, rfl, rfl, by decide⟩

/-- C4, on the code: the one worker of a runner dequeues the submission
`app-1` and starts its command; the stop signal fires while its command is executing and `run` closes
the reporting channel; the worker's send of the state update for `app-1` then
panics. The submission has left the queue, no state update has been sent for
it, and none will be, no goroutine being able to move any more. -/
theorem dequeued_submission_without_update :
    exec none (fun n => n) (initState demoRunner) demoBusyTrace = some demoBusyState ∧
    exec none (fun n => n) (initState demoRunner) (demoStopTrace ++ [Label.worker 0])
      = some demoCrashState ∧
    demoCrashState.r.queue.buf = [] ∧
    demoCrashState.r.appStateReportingChan.sent = [] ∧
    demoCrashState.crashed = true ∧
    ∀ l : Label, step none (fun n => n) demoCrashState l = none := by
  refine ⟨by decide, by decide, rfl, rfl, rfl, ?_⟩
  intro l
  simp [step, demoCrashState]

end SubmissionRunner
